import Mathlib

/-!
# CLFU — weighted LFU cache with frequency ageing

A shallow embedding of `src/lfu.h` (class template `CLFU<KEY, VALUE>`).

Conventions of the embedding (LP64 data model):

* `size_t` is 64 bits wide: a `Nat` with every addition and subtraction reduced
  modulo `SIZE_MOD = 2 ^ 64`;
* `int` is 32 bits wide: the conversions `time_t → int` and `size_t → int` are
  `toInt32`; `int → size_t` is `toSizeT`;
* `std::time_t` values (clock readings, the time-out) are integers, and the
  subtraction and the division of `timeout()` are taken in the integers (clock
  readings do not overflow the 64 bits of `time_t`); the clock reading
  `std::time(0)` is an explicit argument `now` of every operation that reads
  the clock;
* `KEY` is compared with equality (its order `<` is total), and `VALUE(0)`, the
  result of `return 0`, is `0 : V`;
* a `std::list` node is a payload together with its address; a `ListIter` is
  the address of a node, or `none` for `end()`; fresh nodes take the next
  address of the bump allocator `mHeap`, so that a smaller address means an
  earlier insertion;
* `std::map<KEY, ListIter>` is a finite partial function `KEY → Option Nat`;
  `none` stands for `find(...) == end()`;
* undefined behaviour (dereferencing `end()` or a dangling iterator, division
  by zero, shifting by a negative count) is the result `none`.
-/

namespace LFU

/-- The modulus of `size_t` arithmetic. -/
def SIZE_MOD : Nat := 2 ^ 64

/-- Addition of two `size_t` values. -/
def addSize (a b : Nat) : Nat := (a + b) % SIZE_MOD

/-- Subtraction of two `size_t` values (`b < SIZE_MOD`). -/
def subSize (a b : Nat) : Nat := (a + (SIZE_MOD - b)) % SIZE_MOD

/-- Conversion of an integer value to `int` (two's complement, 32 bits). -/
def toInt32 (x : Int) : Int := (x + 2 ^ 31) % 2 ^ 32 - 2 ^ 31

/-- Conversion of an `int` to `size_t`. -/
def toSizeT (x : Int) : Nat := (x % 2 ^ 64).toNat

/-- The payload of a list node: `struct SValueInfo`. -/
structure SValueInfo (K V : Type) where
  mFreq : Nat
  mWeight : Nat
  mKey : K
  mVal : V
deriving DecidableEq

/-- A node of `std::list<SValueInfo>`: its address and its payload. -/
structure Node (K V : Type) where
  addr : Nat
  info : SValueInfo K V
deriving DecidableEq

/-- A list iterator: the address of a node, `none` for `end()`. -/
abbrev ListIter := Option Nat

/-- The data members of `CLFU`, with the allocator state `mHeap`. -/
structure CLFU (K V : Type) where
  mTimeOut : Int
  mTimeStamp : Int
  mMaxWeight : Nat
  mCurWeight : Nat
  mIndex : K → Option Nat
  mVals : List (Node K V)
  mHeap : Nat

variable {K V : Type}

/-- The constructor `CLFU(_weight, _timeout)`. It has no initialiser for
`mCurWeight`: the indeterminate value the member starts with is `indet`. -/
def CLFU.new (_weight : Nat) (_timeout : Int) (now : Int) (indet : Nat) : CLFU K V :=
  { mTimeOut := _timeout
    mTimeStamp := now
    mMaxWeight := _weight
    mCurWeight := indet
    mIndex := fun _ => none
    mVals := []
    mHeap := 0 }

/-! ## List primitives -/

/-- The iterator `mVals.begin()`. -/
def listBegin : List (Node K V) → ListIter
  | [] => none
  | n :: _ => some n.addr

/-- Dereference an iterator: the payload of the node at address `a`. -/
def deref : List (Node K V) → Nat → Option (SValueInfo K V)
  | [], _ => none
  | n :: rest, a => if n.addr = a then some n.info else deref rest a

/-- The nodes from the iterator `it` to the end of the list. -/
def suffixFrom : List (Node K V) → ListIter → List (Node K V)
  | _, none => []
  | [], some _ => []
  | n :: rest, some a => if n.addr = a then n :: rest else suffixFrom rest (some a)

/-- The loop of `find`: the first node with a frequency above `_freq`. -/
def scan : List (Node K V) → Nat → ListIter
  | [], _ => none
  | n :: rest, _freq => if n.info.mFreq > _freq then some n.addr else scan rest _freq

/-- The method `find(_from, _freq)`. -/
def find (vals : List (Node K V)) (_from : ListIter) (_freq : Nat) : ListIter :=
  scan (suffixFrom vals _from) _freq

/-- The call `list.insert(pos, x)`: link `x` in before the node `pos`. -/
def insertBefore : List (Node K V) → ListIter → Node K V → List (Node K V)
  | [], _, x => [x]
  | n :: rest, pos, x =>
    if pos = some n.addr then x :: n :: rest else n :: insertBefore rest pos x

/-- Unlink the node at address `a`. -/
def eraseAddr : List (Node K V) → Nat → List (Node K V)
  | [], _ => []
  | n :: rest, a => if n.addr = a then rest else n :: eraseAddr rest a

/-- The node at address `a`. -/
def nodeAt : List (Node K V) → Nat → Option (Node K V)
  | [], _ => none
  | n :: rest, a => if n.addr = a then some n else nodeAt rest a

/-- The call `mVals.splice(pos, mVals, it)`: move the node `it` before `pos`;
nothing happens when `pos` is `it` itself. -/
def splice (vals : List (Node K V)) (pos : ListIter) (it : Nat) : List (Node K V) :=
  if pos = some it then vals
  else
    match nodeAt vals it with
    | none => vals
    | some x => insertBefore (eraseAddr vals it) pos x

/-- The statement `list_iter->mFreq += _freq`. -/
def addFreq : List (Node K V) → Nat → Nat → List (Node K V)
  | [], _, _ => []
  | n :: rest, a, _freq =>
    if n.addr = a then
      { n with info := { n.info with mFreq := addSize n.info.mFreq _freq } } :: rest
    else n :: addFreq rest a _freq

/-- The statement `iter_begin->mFreq >>= dec` on one node. -/
def shiftNode (dec : Nat) (n : Node K V) : Node K V :=
  { n with info := { n.info with mFreq := n.info.mFreq >>> dec } }

/-! ## Methods of the class -/

/-- The loop of `print()`: `last_freq` is an `int`, compared with a `size_t`. -/
def printLoop : Int → List (Node K V) → Bool
  | _, [] => true
  | last_freq, n :: rest =>
    decide (toSizeT last_freq ≤ n.info.mFreq) && printLoop (toInt32 n.info.mFreq) rest

/-- The method `print()`: `true` when no assertion fails. -/
def print (c : CLFU K V) : Bool := printLoop 0 c.mVals

/-- The method `timeout()`: the shift count, and the state with the new
time stamp. -/
def timeout (c : CLFU K V) (now : Int) : Option (CLFU K V × Int) :=
  let cur_t := now
  let interval_t := cur_t - c.mTimeStamp
  if interval_t < c.mTimeOut then some (c, 0)
  else if c.mTimeOut = 0 then none
  else
    let _move := toInt32 (Int.tdiv interval_t c.mTimeOut)
    some ({ c with mTimeStamp := cur_t }, if _move ≥ 32 then 31 else _move)

/-- The method `decreaseFreq()`. -/
def decreaseFreq (c : CLFU K V) (now : Int) : Option (CLFU K V) :=
  match timeout c now with
  | none => none
  | some (c1, dec) =>
    if dec = 0 then some c1
    else if dec < 0 then none
    else some { c1 with mVals := c1.mVals.map (shiftNode dec.toNat) }

/-- The method `sort(_iter)`. -/
def sort (c : CLFU K V) (now : Int) (_iter : Nat) : Option (CLFU K V) :=
  match decreaseFreq c now with
  | none => none
  | some c1 =>
    match deref c1.mVals _iter with
    | none => none
    | some x =>
      let prev_iter := find c1.mVals (some _iter) x.mFreq
      if prev_iter = some _iter then some c1
      else some { c1 with mVals := splice c1.mVals prev_iter _iter }

/-- The method `get(_key, _freq)`: the state afterwards and the value
returned. -/
def get [Zero V] (c : CLFU K V) (now : Int) (_key : K) (_freq : Nat) :
    Option (CLFU K V × V) :=
  match c.mIndex _key with
  | none => some (c, 0)
  | some list_iter =>
    match deref c.mVals list_iter with
    | none => none
    | some _ =>
      match sort { c with mVals := addFreq c.mVals list_iter _freq } now list_iter with
      | none => none
      | some c2 =>
        match deref c2.mVals list_iter with
        | none => none
        | some y => some (c2, y.mVal)

/-- The method `pop()`. -/
def pop [DecidableEq K] (c : CLFU K V) : Option (CLFU K V) :=
  match c.mVals with
  | [] => none
  | last :: rest =>
    some { c with
      mCurWeight := subSize c.mCurWeight last.info.mWeight
      mIndex := Function.update c.mIndex last.info.mKey none
      mVals := rest }

/-- The method `push(_info)`. -/
def push [DecidableEq K] (c : CLFU K V) (_info : SValueInfo K V) : CLFU K V :=
  let _iter := find c.mVals (listBegin c.mVals) _info.mFreq
  { c with
    mVals := insertBefore c.mVals _iter { addr := c.mHeap, info := _info }
    mIndex := Function.update c.mIndex _info.mKey (some c.mHeap)
    mHeap := c.mHeap + 1 }

/-- The loop `while (mCurWeight > mMaxWeight) pop();` run for at most `fuel`
tests of its condition. -/
def evictLoop [DecidableEq K] : Nat → CLFU K V → Option (CLFU K V)
  | 0, _ => none
  | fuel + 1, c =>
    if c.mCurWeight > c.mMaxWeight then (pop c).bind (evictLoop fuel) else some c

/-- The method `put(_key, _val, _weight, _freq)`. Every turn of the loop
unlinks a node, so `mVals.length + 1` tests of the condition suffice. -/
def put [DecidableEq K] (c : CLFU K V) (_key : K) (_val : V) (_weight _freq : Nat) :
    Option (CLFU K V) :=
  match c.mIndex _key with
  | some _ => some c
  | none =>
    let c1 := { c with mCurWeight := addSize c.mCurWeight _weight }
    match evictLoop (c1.mVals.length + 1) c1 with
    | none => none
    | some c2 =>
      some (push c2 { mFreq := _freq, mWeight := _weight, mKey := _key, mVal := _val })

/-! ## Call sequences -/

/-- A call of one of the two public mutators. -/
inductive Op (K V : Type) where
  | put (key : K) (val : V) (weight freq : Nat)
  | get (now : Int) (key : K) (incrementBy : Nat)

/-- Perform one call. -/
def step [DecidableEq K] [Zero V] (c : CLFU K V) : Op K V → Option (CLFU K V)
  | .put k v w f => put c k v w f
  | .get now k n => (get c now k n).map Prod.fst

/-- Perform a sequence of calls, first to last. -/
def run [DecidableEq K] [Zero V] (c : CLFU K V) : List (Op K V) → Option (CLFU K V)
  | [] => some c
  | op :: ops => (step c op).bind (fun c1 => run c1 ops)

/-- The frequencies of the sequence, head to tail. -/
def freqs (c : CLFU K V) : List Nat := c.mVals.map (fun n => n.info.mFreq)

/-- What `print()` shows: key, value and frequency of each entry, head to
tail. -/
def contents (c : CLFU K V) : List (K × V × Nat) :=
  c.mVals.map (fun n => (n.info.mKey, n.info.mVal, n.info.mFreq))

/-! ## Vocabulary of the statements -/

/-- The addresses of the nodes of a list. -/
def addrs (l : List (Node K V)) : List Nat := l.map Node.addr

/-- The part of a node that `get` never writes. -/
def core (n : Node K V) : Nat × K × V × Nat :=
  (n.addr, n.info.mKey, n.info.mVal, n.info.mWeight)

/-- Sum of the weights of the entries. -/
def sumWeights (l : List (Node K V)) : Nat := (l.map (fun n => n.info.mWeight)).sum

/-- The test `!(node.mFreq > _freq)` that lets the loop of `find` go on. -/
def notAbove (f : Nat) (n : Node K V) : Bool := decide (n.info.mFreq ≤ f)

/-- The time stamp `timeout()` leaves behind. -/
def stampAfter (c : CLFU K V) (now : Int) : Int :=
  if now - c.mTimeStamp < c.mTimeOut then c.mTimeStamp else now

/-- The shift count `timeout()` returns at the clock reading `now`. -/
def shiftCount (c : CLFU K V) (now : Int) : Option Int := (timeout c now).map Prod.snd

/-- The node `x` after `mFreq += n` and `mFreq >>= s`. -/
def touched (n s : Nat) (x : Node K V) : Node K V :=
  shiftNode s { x with info := { x.info with mFreq := addSize x.info.mFreq n } }

/-- The sequence `pre ++ x :: post` after `x` has been moved behind the entries
of `post` that `find` walks over. -/
def reposition (pre : List (Node K V)) (x : Node K V) (post : List (Node K V)) :
    List (Node K V) :=
  pre ++ post.takeWhile (notAbove x.info.mFreq) ++ x :: post.dropWhile (notAbove x.info.mFreq)

/-- The index after `pop()` has erased the keys of the nodes `removed`. -/
def eraseKeys [DecidableEq K] (idx : K → Option Nat) (removed : List (Node K V)) :
    K → Option Nat :=
  removed.foldl (fun i n => Function.update i n.info.mKey none) idx

/-- Invariant I1: frequencies do not decrease from head to tail. -/
def SortedByFreq (l : List (Node K V)) : Prop :=
  l.Pairwise (fun a b => a.info.mFreq ≤ b.info.mFreq)

instance (l : List (Node K V)) : Decidable (SortedByFreq l) := by
  unfold SortedByFreq; infer_instance

/-- The nodes of the list are distinct objects handed out by the allocator. -/
structure HeapOk (c : CLFU K V) : Prop where
  nodup : (addrs c.mVals).Nodup
  fresh : ∀ a ∈ addrs c.mVals, a < c.mHeap

/-- Invariant I3: the index holds exactly the keys of the sequence, each with
the address of the node that carries it. -/
def IndexOk (c : CLFU K V) : Prop :=
  ∀ k a, c.mIndex k = some a ↔ ∃ n ∈ c.mVals, n.addr = a ∧ n.info.mKey = k

/-- Invariant I4, first half: `mCurWeight` is the sum of the weights, and is a
`size_t` value. -/
def WeightOk (c : CLFU K V) : Prop :=
  c.mCurWeight = sumWeights c.mVals ∧ c.mCurWeight < SIZE_MOD

/-- The ageing pass of `get` has defined behaviour at the clock reading `now`:
`timeout()` divides by a non-zero time-out and the shift count is not negative. -/
def clockDefined (c : CLFU K V) (now : Int) : Bool :=
  match shiftCount c now with
  | some dec => decide (0 ≤ dec)
  | none => false

/-- The call `get` does not wrap the frequency it increments. -/
def freqFits (c : CLFU K V) : Op K V → Bool
  | .put _ _ _ _ => true
  | .get _ k n =>
    match c.mIndex k with
    | none => true
    | some a =>
      match deref c.mVals a with
      | none => true
      | some x => decide (x.mFreq + n < SIZE_MOD)

/-- The call `put` has a weight within the capacity and does not wrap
`mCurWeight`. -/
def weightFits (c : CLFU K V) : Op K V → Bool
  | .put _ _ w _ => decide (w ≤ c.mMaxWeight) && decide (c.mCurWeight + w < SIZE_MOD)
  | .get _ _ _ => true

/-- Every call of the sequence satisfies `p` in the state it is made in. -/
def eachCall [DecidableEq K] [Zero V] (p : CLFU K V → Op K V → Bool) :
    CLFU K V → List (Op K V) → Bool
  | _, [] => true
  | c, op :: ops =>
    p c op && (match step c op with
      | none => true
      | some c1 => eachCall p c1 ops)

/-- The scenario of the specification (`maxWeight = 3`, three insertions, an
access, a fourth insertion), followed by an access after 65 seconds. -/
def scenarioOps : List (Op String Nat) :=
  [.put "a" 1 1 1, .put "b" 2 1 1, .put "c" 3 1 1, .get 0 "a" 1, .put "d" 4 1 1,
   .get 65 "c" 5]

/-- The cache of the scenario before any call. -/
def scenarioStart : CLFU String Nat := CLFU.new 3 30 0 0

/-- The cache at the end of the scenario. -/
def scenarioEnd : CLFU String Nat := (run scenarioStart scenarioOps).getD scenarioStart

instance (c : CLFU K V) : Decidable (WeightOk c) := by
  unfold WeightOk; infer_instance

/-- The cache of the scenario after its first four calls: `b(1), c(1), a(2)`. -/
def scenarioMid : CLFU String Nat :=
  (run scenarioStart (scenarioOps.take 4)).getD scenarioStart

/-- The sequence of calls holds calls of `put` only. -/
def putsOnly : List (Op K V) → Bool
  | [] => true
  | .put _ _ _ _ :: ops => putsOnly ops
  | .get _ _ _ :: _ => false

/-- Invariant I2: of two entries of equal frequency, the one created first (the
one with the smaller address) is nearer the head. -/
def FifoByBucket (l : List (Node K V)) : Prop :=
  l.Pairwise (fun x y => x.info.mFreq = y.info.mFreq → x.addr < y.addr)

instance (l : List (Node K V)) : Decidable (FifoByBucket l) := by
  unfold FifoByBucket; infer_instance

/-- The cache of the scenario after its three first insertions:
`a(1), b(1), c(1)`. -/
def scenarioPuts : CLFU String Nat :=
  (run scenarioStart (scenarioOps.take 3)).getD scenarioStart

/-- The cache of the scenario after its fifth call: `c(1), d(1), a(2)`. -/
def scenarioFull : CLFU String Nat :=
  (run scenarioStart (scenarioOps.take 5)).getD scenarioStart

/-- The node was allocated before the allocator reached the address `h`. -/
def olderThan (h : Nat) (n : Node K V) : Bool := decide (n.addr < h)

/-- The method `pop()` called `n` times in a row. -/
def pops [DecidableEq K] : Nat → CLFU K V → Option (CLFU K V)
  | 0, c => some c
  | n + 1, c => (pop c).bind (pops n)

/-- The predicate that is the complement of `notAbove`: the test
`node.mFreq > _freq` of `find`. -/
def above (f : Nat) (n : Node K V) : Bool := decide (f < n.info.mFreq)

/-- The keys of the entries of the sequence, head to tail. -/
def keys (l : List (Node K V)) : List K := l.map (fun n => n.info.mKey)

/-- Two insertions made on the cache `b(1), c(1), a(2)` of the scenario. -/
def twoPuts : List (Op String Nat) := [.put "d" 4 1 1, .put "e" 5 1 9]

/-- The cache `b(1), c(1), a(2)` of the scenario after the insertions
`twoPuts`: `d(1), a(2), e(9)`. -/
def scenarioTwoPuts : CLFU String Nat := (run scenarioMid twoPuts).getD scenarioMid

/-- The cache `b(1), c(1), a(2)` of the scenario after `get(b)` with no decay
due: `c(1), a(2), b(2)`. -/
def scenarioGetB : CLFU String Nat :=
  ((get scenarioMid 0 "b" 1).map Prod.fst).getD scenarioMid

/-- A cache with an entry of weight 0: `a` (weight 0), `b` (weight 2),
`c` (weight 1), all of frequency 1, `maxWeight = 3`. -/
def zeroWeightCache : CLFU String Nat :=
  (run scenarioStart [.put "a" 1 0 1, .put "b" 2 2 1, .put "c" 3 1 1]).getD scenarioStart

/-! ## Properties of the list primitives -/

theorem scan_mem (l : List (Node K V)) (f a : Nat) (h : scan l f = some a) :
    a ∈ addrs l := by
  induction l with
  | nil => simp [scan] at h
  | cons n rest ih =>
    unfold scan at h
    split_ifs at h with hgt
    · simp only [Option.some.injEq] at h
      simp [addrs, h.symm]
    · have := ih h
      simp only [addrs, List.map_cons, List.mem_cons] at this ⊢
      exact Or.inr this

theorem scan_eq_dropWhile (l : List (Node K V)) (f : Nat) :
    scan l f = listBegin (l.dropWhile (notAbove f)) := by
  induction l with
  | nil => rfl
  | cons n rest ih =>
    unfold scan
    by_cases hgt : n.info.mFreq > f
    · have : notAbove f n = false := by simp [notAbove]; omega
      simp [hgt, List.dropWhile_cons, this, listBegin]
    · have : notAbove f n = true := by simp [notAbove]; omega
      simp [hgt, List.dropWhile_cons, this, ih]

theorem insertBefore_none (l : List (Node K V)) (x : Node K V) :
    insertBefore l none x = l ++ [x] := by
  induction l with
  | nil => rfl
  | cons n rest ih => simp [insertBefore, ih]

theorem insertBefore_append (pre l : List (Node K V)) (pos : ListIter) (x : Node K V)
    (h : ∀ a, pos = some a → a ∉ addrs pre) :
    insertBefore (pre ++ l) pos x = pre ++ insertBefore l pos x := by
  induction pre with
  | nil => rfl
  | cons n rest ih =>
    have hne : pos ≠ some n.addr := by
      intro hp
      exact h n.addr hp (by simp [addrs])
    have ih2 := ih (fun a ha hm => h a ha (by
      simp only [addrs, List.map_cons, List.mem_cons] at hm ⊢
      exact Or.inr hm))
    simp [insertBefore, hne, ih2]

theorem insertBefore_scan (l : List (Node K V)) (f : Nat) (x : Node K V)
    (hnd : (addrs l).Nodup) :
    insertBefore l (scan l f) x
      = l.takeWhile (notAbove f) ++ x :: l.dropWhile (notAbove f) := by
  induction l with
  | nil => rfl
  | cons n rest ih =>
    have hnd2 : n.addr ∉ addrs rest ∧ (addrs rest).Nodup := by
      simpa [addrs] using hnd
    unfold scan
    by_cases hgt : n.info.mFreq > f
    · have : notAbove f n = false := by simp [notAbove]; omega
      simp [hgt, insertBefore, List.takeWhile_cons, List.dropWhile_cons, this]
    · have hna : notAbove f n = true := by simp [notAbove]; omega
      have hne : scan rest f ≠ some n.addr := fun hs => hnd2.1 (scan_mem rest f _ hs)
      simp [hgt, insertBefore, hne, List.takeWhile_cons, List.dropWhile_cons, hna, ih hnd2.2]

theorem insertBefore_perm (l : List (Node K V)) (pos : ListIter) (x : Node K V) :
    (insertBefore l pos x).Perm (x :: l) := by
  induction l with
  | nil => simp [insertBefore]
  | cons n rest ih =>
    unfold insertBefore
    split_ifs
    · exact List.Perm.refl _
    · exact (List.Perm.cons n ih).trans (List.Perm.swap x n rest)

theorem eraseAddr_perm (l : List (Node K V)) (a : Nat) (x : Node K V)
    (h : nodeAt l a = some x) : (x :: eraseAddr l a).Perm l := by
  induction l with
  | nil => simp [nodeAt] at h
  | cons n rest ih =>
    unfold nodeAt at h
    unfold eraseAddr
    split_ifs at h ⊢ with hn
    · simp only [Option.some.injEq] at h
      rw [h]
    · exact (List.Perm.swap n x _).trans (List.Perm.cons n (ih h))

theorem splice_perm (l : List (Node K V)) (pos : ListIter) (it : Nat) :
    (splice l pos it).Perm l := by
  unfold splice
  split_ifs
  · exact List.Perm.refl _
  · cases hx : nodeAt l it with
    | none => exact List.Perm.refl _
    | some x => exact (insertBefore_perm _ pos x).trans (eraseAddr_perm l it x hx)

theorem deref_append (pre l : List (Node K V)) (a : Nat) (h : a ∉ addrs pre) :
    deref (pre ++ l) a = deref l a := by
  induction pre with
  | nil => rfl
  | cons n rest ih =>
    have h2 : n.addr ≠ a ∧ a ∉ addrs rest := by
      constructor
      · intro he; exact h (by simp [addrs, he])
      · intro hm; exact h (by simp only [addrs, List.map_cons, List.mem_cons] at hm ⊢; exact Or.inr hm)
    simp [deref, h2.1, ih h2.2]

theorem nodeAt_append (pre l : List (Node K V)) (a : Nat) (h : a ∉ addrs pre) :
    nodeAt (pre ++ l) a = nodeAt l a := by
  induction pre with
  | nil => rfl
  | cons n rest ih =>
    have h2 : n.addr ≠ a ∧ a ∉ addrs rest := by
      constructor
      · intro he; exact h (by simp [addrs, he])
      · intro hm; exact h (by simp only [addrs, List.map_cons, List.mem_cons] at hm ⊢; exact Or.inr hm)
    simp [nodeAt, h2.1, ih h2.2]

theorem suffixFrom_append (pre l : List (Node K V)) (a : Nat) (h : a ∉ addrs pre) :
    suffixFrom (pre ++ l) (some a) = suffixFrom l (some a) := by
  induction pre with
  | nil => rfl
  | cons n rest ih =>
    have h2 : n.addr ≠ a ∧ a ∉ addrs rest := by
      constructor
      · intro he; exact h (by simp [addrs, he])
      · intro hm; exact h (by simp only [addrs, List.map_cons, List.mem_cons] at hm ⊢; exact Or.inr hm)
    simp [suffixFrom, h2.1, ih h2.2]

theorem eraseAddr_append (pre l : List (Node K V)) (a : Nat) (h : a ∉ addrs pre) :
    eraseAddr (pre ++ l) a = pre ++ eraseAddr l a := by
  induction pre with
  | nil => rfl
  | cons n rest ih =>
    have h2 : n.addr ≠ a ∧ a ∉ addrs rest := by
      constructor
      · intro he; exact h (by simp [addrs, he])
      · intro hm; exact h (by simp only [addrs, List.map_cons, List.mem_cons] at hm ⊢; exact Or.inr hm)
    simp [eraseAddr, h2.1, ih h2.2]

theorem addFreq_append (pre l : List (Node K V)) (a f : Nat) (h : a ∉ addrs pre) :
    addFreq (pre ++ l) a f = pre ++ addFreq l a f := by
  induction pre with
  | nil => rfl
  | cons n rest ih =>
    have h2 : n.addr ≠ a ∧ a ∉ addrs rest := by
      constructor
      · intro he; exact h (by simp [addrs, he])
      · intro hm; exact h (by simp only [addrs, List.map_cons, List.mem_cons] at hm ⊢; exact Or.inr hm)
    simp [addFreq, h2.1, ih h2.2]

/-- A valid iterator splits the list at its node. -/
theorem deref_split (l : List (Node K V)) (a : Nat) (i : SValueInfo K V)
    (h : deref l a = some i) :
    ∃ pre x post, l = pre ++ x :: post ∧ x.addr = a ∧ x.info = i ∧ a ∉ addrs pre := by
  induction l with
  | nil => simp [deref] at h
  | cons n rest ih =>
    unfold deref at h
    split_ifs at h with hn
    · simp only [Option.some.injEq] at h
      exact ⟨[], n, rest, rfl, hn, h, by simp [addrs]⟩
    · obtain ⟨pre, x, post, hl, hx, hi, hp⟩ := ih h
      refine ⟨n :: pre, x, post, by simp [hl], hx, hi, ?_⟩
      simp only [addrs, List.map_cons, List.mem_cons, not_or] at hp ⊢
      exact ⟨fun he => hn he.symm, hp⟩


/-! ## The clock and the ageing pass -/

theorem timeout_state (c c1 : CLFU K V) (now dec : Int) (h : timeout c now = some (c1, dec)) :
    c1 = { c with mTimeStamp := stampAfter c now } := by
  unfold timeout at h
  simp only at h
  unfold stampAfter
  by_cases h1 : now - c.mTimeStamp < c.mTimeOut
  · simp only [h1, if_true, Option.some.injEq, Prod.mk.injEq] at h
    simp [h1, h.1.symm]
  · by_cases h2 : c.mTimeOut = 0
    · rw [if_neg h1, if_pos h2] at h
      cases h
    · simp only [h1, h2, if_false, Option.some.injEq, Prod.mk.injEq] at h
      simp [h1, h.1.symm]

theorem shiftNode_zero (n : Node K V) : shiftNode 0 n = n := by
  cases n with
  | mk a i => cases i; simp [shiftNode]

theorem map_shiftNode_zero (l : List (Node K V)) : l.map (shiftNode 0) = l := by
  induction l with
  | nil => rfl
  | cons n rest ih => simp [shiftNode_zero, ih]

theorem decreaseFreq_eq (c : CLFU K V) (now dec : Int)
    (h : shiftCount c now = some dec) (hdec : 0 ≤ dec) :
    decreaseFreq c now
      = some { c with mTimeStamp := stampAfter c now
                      mVals := c.mVals.map (shiftNode dec.toNat) } := by
  unfold shiftCount at h
  cases ht : timeout c now with
  | none => simp [ht] at h
  | some p =>
    obtain ⟨c1, d⟩ := p
    simp only [ht, Option.map_some', Option.some.injEq] at h
    subst h
    have hc1 := timeout_state c c1 now d ht
    unfold decreaseFreq
    simp only [ht]
    by_cases h0 : d = 0
    · subst h0
      simp [hc1, map_shiftNode_zero]
    · have : ¬ d < 0 := by omega
      simp [h0, this, hc1]

theorem decreaseFreq_some (c c1 : CLFU K V) (now : Int) (h : decreaseFreq c now = some c1) :
    ∃ dec, shiftCount c now = some dec ∧ 0 ≤ dec ∧
      c1 = { c with mTimeStamp := stampAfter c now
                    mVals := c.mVals.map (shiftNode dec.toNat) } := by
  cases ht : timeout c now with
  | none => simp [decreaseFreq, ht] at h
  | some p =>
    obtain ⟨c0, d⟩ := p
    have hs : shiftCount c now = some d := by simp [shiftCount, ht]
    have hd : 0 ≤ d := by
      by_contra hneg
      have h1 : d ≠ 0 := by omega
      have h2 : d < 0 := by omega
      simp [decreaseFreq, ht, h1, h2] at h
    refine ⟨d, hs, hd, ?_⟩
    rw [decreaseFreq_eq c now d hs hd] at h
    simpa using h.symm

theorem shiftCount_congr (c c1 : CLFU K V) (now : Int)
    (h1 : c1.mTimeOut = c.mTimeOut) (h2 : c1.mTimeStamp = c.mTimeStamp) :
    shiftCount c1 now = shiftCount c now := by
  unfold shiftCount timeout
  simp only [h1, h2]
  split_ifs <;> simp

theorem stampAfter_congr (c c1 : CLFU K V) (now : Int)
    (h1 : c1.mTimeOut = c.mTimeOut) (h2 : c1.mTimeStamp = c.mTimeStamp) :
    stampAfter c1 now = stampAfter c now := by
  unfold stampAfter
  simp only [h1, h2]

/-! ## Repositioning -/

theorem addrs_append (l1 l2 : List (Node K V)) : addrs (l1 ++ l2) = addrs l1 ++ addrs l2 := by
  simp [addrs]

theorem addrs_cons (n : Node K V) (l : List (Node K V)) : addrs (n :: l) = n.addr :: addrs l := rfl

theorem addrs_map_shiftNode (s : Nat) (l : List (Node K V)) :
    addrs (l.map (shiftNode s)) = addrs l := by
  induction l with
  | nil => rfl
  | cons n rest ih => simp [addrs, shiftNode] at ih ⊢

/-- In a list whose nodes have distinct addresses, the scan of `sort` and the
splice that follows move the node `x` to `reposition pre x post`. -/
theorem splice_find (pre post : List (Node K V)) (x : Node K V)
    (hnd : (addrs (pre ++ x :: post)).Nodup) :
    deref (pre ++ x :: post) x.addr = some x.info ∧
    find (pre ++ x :: post) (some x.addr) x.info.mFreq ≠ some x.addr ∧
    splice (pre ++ x :: post) (find (pre ++ x :: post) (some x.addr) x.info.mFreq) x.addr
      = reposition pre x post := by
  rw [addrs_append, addrs_cons] at hnd
  have hparts := List.nodup_append.mp hnd
  obtain ⟨hpre, hxpost, hdisj⟩ := hparts
  have hxpost2 : x.addr ∉ addrs post ∧ (addrs post).Nodup := by simpa using hxpost
  have hxpre : x.addr ∉ addrs pre := fun hm => hdisj hm (by simp)
  have hfind : find (pre ++ x :: post) (some x.addr) x.info.mFreq = scan post x.info.mFreq := by
    unfold find
    rw [suffixFrom_append pre _ _ hxpre]
    simp [suffixFrom, scan]
  have hpos_post : ∀ a, scan post x.info.mFreq = some a → a ∈ addrs post :=
    fun a ha => scan_mem post _ a ha
  have hne : scan post x.info.mFreq ≠ some x.addr := fun hs => hxpost2.1 (hpos_post _ hs)
  refine ⟨?_, ?_, ?_⟩
  · rw [deref_append pre _ _ hxpre]
    simp [deref]
  · rw [hfind]; exact hne
  · rw [hfind]
    unfold splice
    rw [if_neg hne, nodeAt_append pre _ _ hxpre, eraseAddr_append pre _ _ hxpre]
    simp only [nodeAt, eraseAddr, if_true]
    rw [insertBefore_append pre post _ x, insertBefore_scan post _ x hxpost2.2]
    · simp [reposition]
    · intro a ha hm
      exact hdisj hm (by simp [hpos_post a ha])

theorem sort_eq (c : CLFU K V) (now dec : Int) (pre post : List (Node K V)) (x : Node K V)
    (hv : c.mVals = pre ++ x :: post) (hnd : (addrs c.mVals).Nodup)
    (hs : shiftCount c now = some dec) (hdec : 0 ≤ dec) :
    sort c now x.addr
      = some { c with
          mTimeStamp := stampAfter c now
          mVals := reposition (pre.map (shiftNode dec.toNat)) (shiftNode dec.toNat x)
            (post.map (shiftNode dec.toNat)) } := by
  unfold sort
  rw [decreaseFreq_eq c now dec hs hdec]
  simp only
  have hl : c.mVals.map (shiftNode dec.toNat)
      = pre.map (shiftNode dec.toNat) ++ shiftNode dec.toNat x :: post.map (shiftNode dec.toNat) := by
    simp [hv]
  have hnd2 : (addrs (pre.map (shiftNode dec.toNat) ++ shiftNode dec.toNat x ::
      post.map (shiftNode dec.toNat))).Nodup := by
    rw [← hl, addrs_map_shiftNode]; exact hnd
  have hxa : (shiftNode dec.toNat x).addr = x.addr := rfl
  obtain ⟨h1, h2, h3⟩ := splice_find _ _ _ hnd2
  rw [hxa] at h1 h2 h3
  rw [hl, h1]
  simp only
  rw [if_neg h2, h3]

theorem sort_some (c c2 : CLFU K V) (now : Int) (it : Nat) (h : sort c now it = some c2) :
    ∃ dec, shiftCount c now = some dec ∧ 0 ≤ dec ∧
      c2.mVals.Perm (c.mVals.map (shiftNode dec.toNat)) ∧
      c2 = { c with mTimeStamp := stampAfter c now, mVals := c2.mVals } := by
  unfold sort at h
  cases hd : decreaseFreq c now with
  | none => simp [hd] at h
  | some c1 =>
    obtain ⟨dec, hs, hdec, hc1⟩ := decreaseFreq_some c c1 now hd
    refine ⟨dec, hs, hdec, ?_⟩
    simp only [hd] at h
    cases hx : deref c1.mVals it with
    | none => simp [hx] at h
    | some x =>
      simp only [hx] at h
      split_ifs at h with hp
      · simp only [Option.some.injEq] at h
        subst h
        subst hc1
        exact ⟨List.Perm.refl _, rfl⟩
      · simp only [Option.some.injEq] at h
        subst h
        subst hc1
        exact ⟨splice_perm _ _ _, rfl⟩

/-! ## The method `get` -/

theorem get_absent [Zero V] (c : CLFU K V) (now : Int) (k : K) (n : Nat)
    (h : c.mIndex k = none) : get c now k n = some (c, 0) := by
  simp [get, h]

theorem map_core_addFreq (l : List (Node K V)) (a f : Nat) :
    (addFreq l a f).map core = l.map core := by
  induction l with
  | nil => rfl
  | cons n rest ih =>
    unfold addFreq
    split_ifs
    · simp [core]
    · simp [ih]

theorem map_core_shiftNode (l : List (Node K V)) (s : Nat) :
    (l.map (shiftNode s)).map core = l.map core := by
  induction l with
  | nil => rfl
  | cons n rest ih => simp [core, shiftNode] at ih ⊢

theorem addrs_eq_map_core (l : List (Node K V)) : addrs l = (l.map core).map Prod.fst := by
  simp [addrs, core]

theorem addrs_addFreq (l : List (Node K V)) (a f : Nat) : addrs (addFreq l a f) = addrs l := by
  rw [addrs_eq_map_core, map_core_addFreq, ← addrs_eq_map_core]

/-- What a defined call of `get` leaves alone. -/
theorem get_frame [Zero V] (c c2 : CLFU K V) (now : Int) (k : K) (n : Nat) (r : V)
    (h : get c now k n = some (c2, r)) :
    c2.mIndex = c.mIndex ∧ c2.mCurWeight = c.mCurWeight ∧ c2.mMaxWeight = c.mMaxWeight ∧
    c2.mHeap = c.mHeap ∧ c2.mTimeOut = c.mTimeOut ∧
    (c2.mVals.map core).Perm (c.mVals.map core) := by
  unfold get at h
  cases hk : c.mIndex k with
  | none =>
    simp only [hk, Option.some.injEq, Prod.mk.injEq] at h
    rw [← h.1]
    exact ⟨rfl, rfl, rfl, rfl, rfl, List.Perm.refl _⟩
  | some a =>
    simp only [hk] at h
    cases hd : deref c.mVals a with
    | none => simp [hd] at h
    | some x0 =>
      simp only [hd] at h
      cases hsort : sort { c with mVals := addFreq c.mVals a n } now a with
      | none => simp [hsort] at h
      | some c3 =>
        simp only [hsort] at h
        cases hd2 : deref c3.mVals a with
        | none => simp [hd2] at h
        | some y =>
          simp only [hd2, Option.some.injEq, Prod.mk.injEq] at h
          obtain ⟨dec, _, _, hperm, hc3⟩ := sort_some _ c3 now a hsort
          rw [← h.1, hc3]
          refine ⟨rfl, rfl, rfl, rfl, rfl, ?_⟩
          have := hperm.map core
          rw [map_core_shiftNode] at this
          simp only at this
          rw [map_core_addFreq] at this
          exact this

theorem deref_reposition (pre post : List (Node K V)) (x : Node K V)
    (hnd : (addrs (pre ++ x :: post)).Nodup) :
    deref (reposition pre x post) x.addr = some x.info := by
  rw [addrs_append, addrs_cons] at hnd
  obtain ⟨_, hxpost, hdisj⟩ := List.nodup_append.mp hnd
  have hxpost2 : x.addr ∉ addrs post ∧ (addrs post).Nodup := by simpa using hxpost
  have hxpre : x.addr ∉ addrs pre := fun hm => hdisj hm (by simp)
  unfold reposition
  rw [deref_append _ _ _ ?_]
  · simp [deref]
  · rw [addrs_append]
    intro hm
    rcases List.mem_append.mp hm with h1 | h2
    · exact hxpre h1
    · apply hxpost2.1
      have hsub : (post.takeWhile (notAbove x.info.mFreq)).Sublist post :=
        List.takeWhile_sublist _
      exact (hsub.map Node.addr).subset h2

/-- A defined call of `get` on a present key, in full. -/
theorem get_eq [Zero V] (c : CLFU K V) (now dec : Int) (k : K) (n : Nat)
    (pre post : List (Node K V)) (x : Node K V)
    (hk : c.mIndex k = some x.addr)
    (hv : c.mVals = pre ++ x :: post) (hnd : (addrs c.mVals).Nodup)
    (hs : shiftCount c now = some dec) (hdec : 0 ≤ dec) :
    get c now k n
      = some ({ c with
          mTimeStamp := stampAfter c now
          mVals := reposition (pre.map (shiftNode dec.toNat)) (touched n dec.toNat x)
            (post.map (shiftNode dec.toNat)) }, x.info.mVal) := by
  have hnd0 := hnd
  rw [hv, addrs_append, addrs_cons] at hnd
  obtain ⟨_, _, hdisj⟩ := List.nodup_append.mp hnd
  have hxpre : x.addr ∉ addrs pre := fun hm => hdisj hm (by simp)
  have hderef : deref c.mVals x.addr = some x.info := by
    rw [hv, deref_append pre _ _ hxpre]; simp [deref]
  have hadd : addFreq c.mVals x.addr n
      = pre ++ { x with info := { x.info with mFreq := addSize x.info.mFreq n } } :: post := by
    rw [hv, addFreq_append pre _ _ _ hxpre]; simp [addFreq]
  have hsort := sort_eq { c with mVals := addFreq c.mVals x.addr n } now dec pre post
      { x with info := { x.info with mFreq := addSize x.info.mFreq n } } hadd
      (by simpa [addrs_addFreq] using hnd0)
      ((shiftCount_congr c { c with mVals := addFreq c.mVals x.addr n } now rfl rfl).trans hs) hdec
  simp only at hsort
  unfold get
  simp only [hk, hderef, hsort]
  have hnd3 : (addrs (pre.map (shiftNode dec.toNat) ++ touched n dec.toNat x ::
      post.map (shiftNode dec.toNat))).Nodup := by
    have : pre.map (shiftNode dec.toNat) ++ touched n dec.toNat x :: post.map (shiftNode dec.toNat)
        = (pre ++ { x with info := { x.info with mFreq := addSize x.info.mFreq n } } :: post).map
            (shiftNode dec.toNat) := by
      simp [touched]
    rw [this, addrs_map_shiftNode, ← hadd, addrs_addFreq]
    exact hnd0
  have hd2 := deref_reposition _ _ _ hnd3
  have hta : (touched n dec.toNat x).addr = x.addr := rfl
  rw [hta] at hd2
  have hst : stampAfter { c with mVals := addFreq c.mVals x.addr n } now = stampAfter c now :=
    stampAfter_congr _ c now rfl rfl
  simp only [touched] at hd2 ⊢
  rw [hd2, hst]
  rfl

/-! ## The eviction loop and `put` -/

theorem subSize_eq (a b : Nat) (hb : b ≤ a) (ha : a < SIZE_MOD) : subSize a b = a - b := by
  unfold subSize
  have h1 : a + (SIZE_MOD - b) = (a - b) + SIZE_MOD := by omega
  rw [h1, Nat.add_mod_right, Nat.mod_eq_of_lt (by omega)]

theorem sumWeights_cons (n : Node K V) (l : List (Node K V)) :
    sumWeights (n :: l) = n.info.mWeight + sumWeights l := by
  simp [sumWeights]

theorem sumWeights_append (l1 l2 : List (Node K V)) :
    sumWeights (l1 ++ l2) = sumWeights l1 + sumWeights l2 := by
  simp [sumWeights]

theorem eraseKeys_cons [DecidableEq K] (idx : K → Option Nat) (n : Node K V)
    (l : List (Node K V)) :
    eraseKeys idx (n :: l) = eraseKeys (Function.update idx n.info.mKey none) l := rfl

theorem eraseKeys_none [DecidableEq K] (idx : K → Option Nat) (l : List (Node K V)) (k : K)
    (h : idx k = none) : eraseKeys idx l k = none := by
  induction l generalizing idx with
  | nil => exact h
  | cons n rest ih =>
    rw [eraseKeys_cons]
    apply ih
    by_cases hk : k = n.info.mKey
    · subst hk; simp
    · simp [Function.update_noteq hk, h]

theorem eraseKeys_mem [DecidableEq K] (idx : K → Option Nat) (l : List (Node K V))
    (n : Node K V) (h : n ∈ l) : eraseKeys idx l n.info.mKey = none := by
  induction l generalizing idx with
  | nil => simp at h
  | cons m rest ih =>
    rw [eraseKeys_cons]
    rcases List.mem_cons.mp h with h1 | h1
    · subst h1
      exact eraseKeys_none _ _ _ (by simp)
    · exact ih _ h1

theorem eraseKeys_other [DecidableEq K] (idx : K → Option Nat) (l : List (Node K V)) (k : K)
    (h : ∀ n ∈ l, n.info.mKey ≠ k) : eraseKeys idx l k = idx k := by
  induction l generalizing idx with
  | nil => rfl
  | cons m rest ih =>
    rw [eraseKeys_cons, ih _ (fun n hn => h n (List.mem_cons_of_mem _ hn))]
    exact Function.update_noteq (fun he => h m (List.mem_cons_self _ _) he.symm) _ _

/-- What a run of the eviction loop that ends leaves behind. -/
theorem evictLoop_some [DecidableEq K] (fuel : Nat) (c c2 : CLFU K V)
    (h : evictLoop fuel c = some c2) :
    ∃ removed, c.mVals = removed ++ c2.mVals ∧
      c2.mIndex = eraseKeys c.mIndex removed ∧ c2.mHeap = c.mHeap ∧
      c2.mMaxWeight = c.mMaxWeight ∧ c2.mTimeOut = c.mTimeOut ∧
      c2.mTimeStamp = c.mTimeStamp ∧ c2.mCurWeight ≤ c2.mMaxWeight := by
  induction fuel generalizing c with
  | zero => simp [evictLoop] at h
  | succ fuel ih =>
    unfold evictLoop at h
    by_cases hgt : c.mCurWeight > c.mMaxWeight
    · rw [if_pos hgt] at h
      cases hl : c.mVals with
      | nil => simp [pop, hl] at h
      | cons n rest =>
        simp only [pop, hl, Option.some_bind] at h
        obtain ⟨removed, h1, h2, h3, h4, h5, h6, h7⟩ := ih _ h
        refine ⟨n :: removed, ?_, ?_, h3, h4, h5, h6, h7⟩
        · simp only at h1; simp [h1]
        · rw [h2, eraseKeys_cons]
    · rw [if_neg hgt] at h
      simp only [Option.some.injEq] at h
      subst h
      exact ⟨[], rfl, rfl, rfl, rfl, rfl, rfl, by omega⟩

/-- The eviction loop on a state whose `mCurWeight` is the sum of the weights
plus the weight `w` of the entry to come: it ends, and unlinks the shortest
prefix that makes room. -/
theorem evictLoop_eq [DecidableEq K] (fuel : Nat) (c : CLFU K V) (w : Nat)
    (hfuel : c.mVals.length < fuel)
    (hcur : c.mCurWeight = sumWeights c.mVals + w) (hw : w ≤ c.mMaxWeight)
    (hlt : c.mCurWeight < SIZE_MOD) :
    ∃ removed retained, c.mVals = removed ++ retained ∧
      evictLoop fuel c = some { c with
        mCurWeight := sumWeights retained + w
        mIndex := eraseKeys c.mIndex removed
        mVals := retained } ∧
      sumWeights retained + w ≤ c.mMaxWeight ∧
      (∀ p q, removed = p ++ q → q ≠ [] → c.mMaxWeight < sumWeights (q ++ retained) + w) := by
  induction fuel generalizing c with
  | zero => omega
  | succ fuel ih =>
    unfold evictLoop
    by_cases hgt : c.mCurWeight > c.mMaxWeight
    · rw [if_pos hgt]
      cases hl : c.mVals with
      | nil =>
        rw [hl] at hcur
        simp [sumWeights] at hcur
        omega
      | cons n rest =>
        rw [hl, sumWeights_cons] at hcur
        have hsub : subSize c.mCurWeight n.info.mWeight = sumWeights rest + w := by
          rw [subSize_eq _ _ (by omega) hlt]; omega
        simp only [pop, hl, Option.some_bind]
        rw [hsub]
        have := ih { c with
            mCurWeight := sumWeights rest + w
            mIndex := Function.update c.mIndex n.info.mKey none
            mVals := rest } (by rw [hl] at hfuel; simp at hfuel ⊢; omega) rfl hw
            (by simp only; omega)
        obtain ⟨removed, retained, h1, h2, h3, h4⟩ := this
        simp only at h1 h2 h3 h4
        refine ⟨n :: removed, retained, by simp [h1], ?_, h3, ?_⟩
        · rw [h2, eraseKeys_cons]
        · intro p q hpq hq
          cases p with
          | nil =>
            simp only [List.nil_append] at hpq
            rw [← hpq, List.cons_append, ← h1, sumWeights_cons]
            omega
          | cons p0 ps =>
            simp only [List.cons_append, List.cons.injEq] at hpq
            exact h4 ps q hpq.2 hq
    · rw [if_neg hgt]
      refine ⟨[], c.mVals, rfl, ?_, by omega, ?_⟩
      · congr 1
        cases c
        simp only [eraseKeys, List.foldl_nil] at hcur ⊢
        simp only [CLFU.mk.injEq, true_and, and_true]
        exact hcur
      · intro p q hpq hq
        cases p <;> simp at hpq
        exact absurd hpq hq

theorem suffixFrom_listBegin (l : List (Node K V)) : suffixFrom l (listBegin l) = l := by
  cases l with
  | nil => rfl
  | cons n rest => simp [listBegin, suffixFrom]

theorem find_listBegin (l : List (Node K V)) (f : Nat) :
    find l (listBegin l) f = scan l f := by
  unfold find; rw [suffixFrom_listBegin]

/-- The sequence after `push`: the new node goes behind the leading entries
whose frequency is not above its own. -/
theorem push_vals [DecidableEq K] (c : CLFU K V) (i : SValueInfo K V)
    (hnd : (addrs c.mVals).Nodup) :
    (push c i).mVals
      = c.mVals.takeWhile (notAbove i.mFreq) ++
          { addr := c.mHeap, info := i } :: c.mVals.dropWhile (notAbove i.mFreq) := by
  simp only [push, find_listBegin]
  exact insertBefore_scan _ _ _ hnd

theorem push_perm [DecidableEq K] (c : CLFU K V) (i : SValueInfo K V) :
    (push c i).mVals.Perm ({ addr := c.mHeap, info := i } :: c.mVals) := by
  simp only [push]
  exact insertBefore_perm _ _ _

theorem put_present [DecidableEq K] (c : CLFU K V) (k : K) (v : V) (w f a : Nat)
    (h : c.mIndex k = some a) : put c k v w f = some c := by
  simp [put, h]

theorem put_absent [DecidableEq K] (c : CLFU K V) (k : K) (v : V) (w f : Nat)
    (h : c.mIndex k = none) :
    put c k v w f
      = (evictLoop (c.mVals.length + 1) { c with mCurWeight := addSize c.mCurWeight w }).map
          (fun c2 => push c2 { mFreq := f, mWeight := w, mKey := k, mVal := v }) := by
  simp only [put, h]
  cases evictLoop (c.mVals.length + 1) { c with mCurWeight := addSize c.mCurWeight w } <;> rfl

/-! ## Node identity (`HeapOk`) is kept by every call -/

theorem heapOk_new (w : Nat) (t now : Int) (g : Nat) :
    HeapOk (CLFU.new w t now g : CLFU K V) :=
  ⟨by simp [CLFU.new, addrs], by simp [CLFU.new, addrs]⟩

theorem addrs_perm (l1 l2 : List (Node K V)) (h : (l1.map core).Perm (l2.map core)) :
    (addrs l1).Perm (addrs l2) := by
  rw [addrs_eq_map_core, addrs_eq_map_core]
  exact h.map _

theorem heapOk_get [Zero V] (c c2 : CLFU K V) (now : Int) (k : K) (n : Nat) (r : V)
    (hc : HeapOk c) (h : get c now k n = some (c2, r)) : HeapOk c2 := by
  obtain ⟨_, _, _, hheap, _, hperm⟩ := get_frame c c2 now k n r h
  have hp := addrs_perm _ _ hperm
  refine ⟨hp.nodup_iff.mpr hc.nodup, ?_⟩
  intro a ha
  rw [hheap]
  exact hc.fresh a (hp.subset ha)

theorem heapOk_evictLoop [DecidableEq K] (fuel : Nat) (c c2 : CLFU K V) (hc : HeapOk c)
    (h : evictLoop fuel c = some c2) : HeapOk c2 := by
  obtain ⟨removed, h1, _, h3, _⟩ := evictLoop_some fuel c c2 h
  have hsub : (addrs c2.mVals).Sublist (addrs c.mVals) := by
    rw [h1, addrs_append]
    exact List.sublist_append_right _ _
  refine ⟨hc.nodup.sublist hsub, ?_⟩
  intro a ha
  rw [h3]
  exact hc.fresh a (hsub.subset ha)

theorem heapOk_push [DecidableEq K] (c : CLFU K V) (i : SValueInfo K V) (hc : HeapOk c) :
    HeapOk (push c i) := by
  have hp : (addrs (push c i).mVals).Perm (c.mHeap :: addrs c.mVals) := by
    have := (push_perm c i).map Node.addr
    simpa [addrs] using this
  have hheap : (push c i).mHeap = c.mHeap + 1 := rfl
  refine ⟨hp.nodup_iff.mpr ?_, ?_⟩
  · refine List.nodup_cons.mpr ⟨?_, hc.nodup⟩
    intro hm
    have := hc.fresh _ hm
    omega
  · intro a ha
    rw [hheap]
    rcases List.mem_cons.mp (hp.subset ha) with h1 | h1
    · omega
    · have := hc.fresh a h1
      omega

theorem heapOk_put [DecidableEq K] (c c1 : CLFU K V) (k : K) (v : V) (w f : Nat)
    (hc : HeapOk c) (h : put c k v w f = some c1) : HeapOk c1 := by
  cases hk : c.mIndex k with
  | some a =>
    rw [put_present c k v w f a hk] at h
    simp only [Option.some.injEq] at h
    rw [← h]; exact hc
  | none =>
    rw [put_absent c k v w f hk] at h
    cases he : evictLoop (c.mVals.length + 1) { c with mCurWeight := addSize c.mCurWeight w } with
    | none => simp [he] at h
    | some c2 =>
      simp only [he, Option.map_some', Option.some.injEq] at h
      rw [← h]
      have hc0 : HeapOk { c with mCurWeight := addSize c.mCurWeight w } := ⟨hc.nodup, hc.fresh⟩
      exact heapOk_push _ _ (heapOk_evictLoop _ _ c2 hc0 he)

/-! ## The index (`IndexOk`, I3) is kept by every call -/

theorem indexOk_new (w : Nat) (t now : Int) (g : Nat) :
    IndexOk (CLFU.new w t now g : CLFU K V) := by
  intro k a
  simp [CLFU.new]

theorem mem_core_iff (l : List (Node K V)) (a : Nat) (k : K) :
    (∃ n ∈ l, n.addr = a ∧ n.info.mKey = k) ↔ ∃ p ∈ l.map core, p.1 = a ∧ p.2.1 = k := by
  constructor
  · rintro ⟨n, hn, h1, h2⟩
    exact ⟨core n, List.mem_map_of_mem _ hn, h1, h2⟩
  · rintro ⟨p, hp, h1, h2⟩
    obtain ⟨n, hn, rfl⟩ := List.mem_map.mp hp
    exact ⟨n, hn, h1, h2⟩

theorem indexOk_get [Zero V] (c c2 : CLFU K V) (now : Int) (k : K) (n : Nat) (r : V)
    (hc : IndexOk c) (h : get c now k n = some (c2, r)) : IndexOk c2 := by
  obtain ⟨hidx, _, _, _, _, hperm⟩ := get_frame c c2 now k n r h
  intro k1 a
  rw [hidx, hc k1 a, mem_core_iff, mem_core_iff]
  constructor
  · rintro ⟨p, hp, h12⟩
    exact ⟨p, hperm.symm.subset hp, h12⟩
  · rintro ⟨p, hp, h12⟩
    exact ⟨p, hperm.subset hp, h12⟩

theorem indexOk_evictLoop [DecidableEq K] (fuel : Nat) (c c2 : CLFU K V) (hh : HeapOk c)
    (hc : IndexOk c) (h : evictLoop fuel c = some c2) : IndexOk c2 := by
  obtain ⟨removed, h1, h2, _⟩ := evictLoop_some fuel c c2 h
  have hnd := hh.nodup
  rw [h1, addrs_append] at hnd
  obtain ⟨_, _, hdisj⟩ := List.nodup_append.mp hnd
  intro k a
  rw [h2]
  constructor
  · intro hsome
    have hnot : ∀ m ∈ removed, m.info.mKey ≠ k := by
      intro m hm hmk
      have := eraseKeys_mem c.mIndex removed m hm
      rw [hmk, hsome] at this
      cases this
    rw [eraseKeys_other _ _ _ hnot] at hsome
    obtain ⟨n, hn, hna, hnk⟩ := (hc k a).mp hsome
    rw [h1] at hn
    rcases List.mem_append.mp hn with hr | hr
    · exact absurd hnk (hnot n hr)
    · exact ⟨n, hr, hna, hnk⟩
  · rintro ⟨n, hn, hna, hnk⟩
    have hidx : c.mIndex k = some a :=
      (hc k a).mpr ⟨n, by rw [h1]; exact List.mem_append_right _ hn, hna, hnk⟩
    have hnot : ∀ m ∈ removed, m.info.mKey ≠ k := by
      intro m hm hmk
      have hm2 : c.mIndex k = some m.addr :=
        (hc k m.addr).mpr ⟨m, by rw [h1]; exact List.mem_append_left _ hm, rfl, hmk⟩
      rw [hidx] at hm2
      simp only [Option.some.injEq] at hm2
      have hma : m.addr ∈ addrs removed := List.mem_map_of_mem _ hm
      have hna2 : m.addr ∈ addrs c2.mVals := by
        rw [← hm2, ← hna]; exact List.mem_map_of_mem _ hn
      exact hdisj hma hna2
    rw [eraseKeys_other _ _ _ hnot]
    exact hidx

theorem indexOk_push [DecidableEq K] (c : CLFU K V) (i : SValueInfo K V)
    (hc : IndexOk c) (hk : c.mIndex i.mKey = none) : IndexOk (push c i) := by
  have hperm := push_perm c i
  intro k a
  have hidx : (push c i).mIndex = Function.update c.mIndex i.mKey (some c.mHeap) := rfl
  rw [hidx]
  by_cases hkk : k = i.mKey
  · subst hkk
    rw [Function.update_same]
    constructor
    · intro h
      simp only [Option.some.injEq] at h
      exact ⟨{ addr := c.mHeap, info := i }, hperm.symm.subset (List.mem_cons_self _ _), h, rfl⟩
    · rintro ⟨n, hn, hna, hnk⟩
      rcases List.mem_cons.mp (hperm.subset hn) with h1 | h1
      · rw [← hna, h1]
      · have := (hc i.mKey n.addr).mpr ⟨n, h1, rfl, hnk⟩
        rw [hk] at this
        cases this
  · rw [Function.update_noteq hkk, hc k a]
    constructor
    · rintro ⟨n, hn, h12⟩
      exact ⟨n, hperm.symm.subset (List.mem_cons_of_mem _ hn), h12⟩
    · rintro ⟨n, hn, hna, hnk⟩
      rcases List.mem_cons.mp (hperm.subset hn) with h1 | h1
      · rw [h1] at hnk
        exact absurd hnk.symm hkk
      · exact ⟨n, h1, hna, hnk⟩

theorem indexOk_put [DecidableEq K] (c c1 : CLFU K V) (k : K) (v : V) (w f : Nat)
    (hh : HeapOk c) (hc : IndexOk c) (h : put c k v w f = some c1) : IndexOk c1 := by
  cases hk : c.mIndex k with
  | some a =>
    rw [put_present c k v w f a hk] at h
    simp only [Option.some.injEq] at h
    rw [← h]; exact hc
  | none =>
    rw [put_absent c k v w f hk] at h
    cases he : evictLoop (c.mVals.length + 1) { c with mCurWeight := addSize c.mCurWeight w } with
    | none => simp [he] at h
    | some c2 =>
      simp only [he, Option.map_some', Option.some.injEq] at h
      rw [← h]
      have hh0 : HeapOk { c with mCurWeight := addSize c.mCurWeight w } := ⟨hh.nodup, hh.fresh⟩
      have hi0 : IndexOk { c with mCurWeight := addSize c.mCurWeight w } := fun k a => hc k a
      have hc2 := indexOk_evictLoop _ _ c2 hh0 hi0 he
      obtain ⟨removed, _, h2, _⟩ := evictLoop_some _ _ c2 he
      refine indexOk_push c2 _ hc2 ?_
      rw [h2]
      exact eraseKeys_none _ _ _ hk

/-! ## The order (`SortedByFreq`, I1) -/

theorem shiftRight_mono (a b s : Nat) (h : a ≤ b) : a >>> s ≤ b >>> s := by
  rw [Nat.shiftRight_eq_div_pow, Nat.shiftRight_eq_div_pow]
  exact Nat.div_le_div_right h

theorem sorted_insert (l1 l2 : List (Node K V)) (x : Node K V)
    (hs : SortedByFreq (l1 ++ l2))
    (h1 : ∀ a ∈ l1, a.info.mFreq ≤ x.info.mFreq)
    (h2 : ∀ b ∈ l2, x.info.mFreq ≤ b.info.mFreq) :
    SortedByFreq (l1 ++ x :: l2) := by
  unfold SortedByFreq at hs ⊢
  rw [List.pairwise_append] at hs ⊢
  obtain ⟨hs1, hs2, hs3⟩ := hs
  refine ⟨hs1, List.pairwise_cons.mpr ⟨h2, hs2⟩, ?_⟩
  intro a ha b hb
  rcases List.mem_cons.mp hb with hb1 | hb1
  · rw [hb1]; exact h1 a ha
  · exact hs3 a ha b hb1

theorem sorted_dropWhile_above (l : List (Node K V)) (f : Nat) (hs : SortedByFreq l) :
    ∀ b ∈ l.dropWhile (notAbove f), f < b.info.mFreq := by
  induction l with
  | nil => simp
  | cons n rest ih =>
    unfold SortedByFreq at hs
    obtain ⟨hn, hrest⟩ := List.pairwise_cons.mp hs
    by_cases hna : notAbove f n = true
    · rw [List.dropWhile_cons_of_pos hna]
      exact ih hrest
    · rw [List.dropWhile_cons_of_neg hna]
      have hlt : f < n.info.mFreq := by
        simp only [notAbove, decide_eq_true_eq, not_le] at hna
        exact hna
      intro b hb
      rcases List.mem_cons.mp hb with hb1 | hb1
      · rw [hb1]; exact hlt
      · have := hn b hb1
        omega

theorem mem_takeWhile_notAbove (l : List (Node K V)) (f : Nat) :
    ∀ a ∈ l.takeWhile (notAbove f), a.info.mFreq ≤ f := by
  intro a ha
  have := List.mem_takeWhile_imp ha
  simpa [notAbove] using this

theorem sorted_reposition (pre post : List (Node K V)) (x : Node K V)
    (hs : SortedByFreq (pre ++ post))
    (hpre : ∀ a ∈ pre, a.info.mFreq ≤ x.info.mFreq) :
    SortedByFreq (reposition pre x post) := by
  unfold reposition
  have hpost : SortedByFreq post := by
    unfold SortedByFreq at hs ⊢
    exact (List.pairwise_append.mp hs).2.1
  apply sorted_insert
  · rw [List.append_assoc, List.takeWhile_append_dropWhile]
    exact hs
  · intro a ha
    rcases List.mem_append.mp ha with h1 | h1
    · exact hpre a h1
    · exact mem_takeWhile_notAbove _ _ a h1
  · intro b hb
    exact Nat.le_of_lt (sorted_dropWhile_above post _ hpost b hb)

theorem sorted_map_shiftNode (l : List (Node K V)) (s : Nat) (hs : SortedByFreq l) :
    SortedByFreq (l.map (shiftNode s)) := by
  unfold SortedByFreq at hs ⊢
  rw [List.pairwise_map]
  exact hs.imp (fun {a b} hab => shiftRight_mono _ _ s hab)

theorem sorted_push [DecidableEq K] (c : CLFU K V) (i : SValueInfo K V)
    (hnd : (addrs c.mVals).Nodup) (hs : SortedByFreq c.mVals) :
    SortedByFreq (push c i).mVals := by
  rw [push_vals c i hnd]
  apply sorted_insert
  · rw [List.takeWhile_append_dropWhile]; exact hs
  · exact mem_takeWhile_notAbove _ _
  · intro b hb
    exact Nat.le_of_lt (sorted_dropWhile_above _ _ hs b hb)

theorem sorted_put [DecidableEq K] (c c1 : CLFU K V) (k : K) (v : V) (w f : Nat)
    (hh : HeapOk c) (hs : SortedByFreq c.mVals) (h : put c k v w f = some c1) :
    SortedByFreq c1.mVals := by
  cases hk : c.mIndex k with
  | some a =>
    rw [put_present c k v w f a hk] at h
    simp only [Option.some.injEq] at h
    rw [← h]; exact hs
  | none =>
    rw [put_absent c k v w f hk] at h
    cases he : evictLoop (c.mVals.length + 1) { c with mCurWeight := addSize c.mCurWeight w } with
    | none => simp [he] at h
    | some c2 =>
      simp only [he, Option.map_some', Option.some.injEq] at h
      rw [← h]
      have hh0 : HeapOk { c with mCurWeight := addSize c.mCurWeight w } := ⟨hh.nodup, hh.fresh⟩
      have hh2 := heapOk_evictLoop _ _ c2 hh0 he
      obtain ⟨removed, h1, _⟩ := evictLoop_some _ _ c2 he
      simp only at h1
      refine sorted_push c2 _ hh2.nodup ?_
      unfold SortedByFreq at hs ⊢
      rw [h1] at hs
      exact (List.pairwise_append.mp hs).2.1

/-- A defined call of `get` on a present key dereferences a valid iterator and
computes a shift count that is not negative. -/
theorem get_present_some [Zero V] (c c2 : CLFU K V) (now : Int) (k : K) (n a : Nat) (r : V)
    (hk : c.mIndex k = some a) (h : get c now k n = some (c2, r)) :
    ∃ i dec, deref c.mVals a = some i ∧ shiftCount c now = some dec ∧ 0 ≤ dec := by
  unfold get at h
  simp only [hk] at h
  cases hd : deref c.mVals a with
  | none => simp [hd] at h
  | some x0 =>
    simp only [hd] at h
    cases hsort : sort { c with mVals := addFreq c.mVals a n } now a with
    | none => simp [hsort] at h
    | some c3 =>
      obtain ⟨dec, hs, hdec, _⟩ := sort_some _ c3 now a hsort
      exact ⟨x0, dec, rfl,
        (shiftCount_congr c { c with mVals := addFreq c.mVals a n } now rfl rfl).symm.trans hs,
        hdec⟩

theorem sorted_get [Zero V] (c c2 : CLFU K V) (now : Int) (k : K) (n : Nat) (r : V)
    (hh : HeapOk c) (hs : SortedByFreq c.mVals)
    (hfit : freqFits c (.get now k n) = true)
    (h : get c now k n = some (c2, r)) : SortedByFreq c2.mVals := by
  cases hk : c.mIndex k with
  | none =>
    rw [get_absent c now k n hk] at h
    simp only [Option.some.injEq, Prod.mk.injEq] at h
    rw [← h.1]; exact hs
  | some a =>
    obtain ⟨i, dec, hd, hsc, hdec⟩ := get_present_some c c2 now k n a r hk h
    obtain ⟨pre, x, post, hv, hxa, hxi, _⟩ := deref_split _ _ _ hd
    have hfit2 : x.info.mFreq + n < SIZE_MOD := by
      simp only [freqFits, hk, hd, decide_eq_true_eq] at hfit
      rw [hxi]; exact hfit
    rw [← hxa] at hk
    rw [get_eq c now dec k n pre post x hk hv hh.nodup hsc hdec] at h
    simp only [Option.some.injEq, Prod.mk.injEq] at h
    rw [← h.1]
    simp only
    have hs0 := hs
    rw [hv] at hs
    unfold SortedByFreq at hs
    obtain ⟨hs1, hs2, hs3⟩ := List.pairwise_append.mp hs
    obtain ⟨hx2, hpost⟩ := List.pairwise_cons.mp hs2
    apply sorted_reposition
    · rw [← List.map_append]
      apply sorted_map_shiftNode
      unfold SortedByFreq
      exact List.pairwise_append.mpr ⟨hs1, hpost,
        fun a ha b hb => hs3 a ha b (List.mem_cons_of_mem _ hb)⟩
    · intro a ha
      obtain ⟨a0, ha0, rfl⟩ := List.mem_map.mp ha
      have h1 : a0.info.mFreq ≤ x.info.mFreq := hs3 a0 ha0 x (List.mem_cons_self _ _)
      have h2 : addSize x.info.mFreq n = x.info.mFreq + n := Nat.mod_eq_of_lt hfit2
      simp only [touched, shiftNode, h2]
      exact shiftRight_mono _ _ _ (by omega)

theorem sorted_step [DecidableEq K] [Zero V] (c c1 : CLFU K V) (op : Op K V)
    (hh : HeapOk c) (hs : SortedByFreq c.mVals) (hfit : freqFits c op = true)
    (h : step c op = some c1) : HeapOk c1 ∧ SortedByFreq c1.mVals := by
  cases op with
  | put k v w f =>
    exact ⟨heapOk_put c c1 k v w f hh h, sorted_put c c1 k v w f hh hs h⟩
  | get now k n =>
    simp only [step] at h
    cases hg : get c now k n with
    | none => simp [hg] at h
    | some p =>
      obtain ⟨c2, r⟩ := p
      simp only [hg, Option.map_some', Option.some.injEq] at h
      subst h
      exact ⟨heapOk_get c c2 now k n r hh hg, sorted_get c c2 now k n r hh hs hfit hg⟩

theorem sorted_run [DecidableEq K] [Zero V] (ops : List (Op K V)) (c c1 : CLFU K V)
    (hh : HeapOk c) (hs : SortedByFreq c.mVals) (hfit : eachCall freqFits c ops = true)
    (h : run c ops = some c1) : HeapOk c1 ∧ SortedByFreq c1.mVals := by
  induction ops generalizing c with
  | nil =>
    simp only [run, Option.some.injEq] at h
    subst h
    exact ⟨hh, hs⟩
  | cons op ops ih =>
    simp only [run] at h
    cases hst : step c op with
    | none => simp [hst] at h
    | some c2 =>
      simp only [hst, Option.some_bind] at h
      simp only [eachCall, hst, Bool.and_eq_true] at hfit
      obtain ⟨hh2, hs2⟩ := sorted_step c c2 op hh hs hfit.1 hst
      exact ih c2 hh2 hs2 hfit.2 h

/-! ## The assertion of `print()` -/

theorem toInt32_small (f : Nat) (h : f < 2 ^ 31) : toInt32 (f : Int) = (f : Int) := by
  unfold toInt32
  have h1 : ((f : Int) + 2 ^ 31) % 2 ^ 32 = (f : Int) + 2 ^ 31 := by
    apply Int.emod_eq_of_lt <;> omega
  omega

theorem toSizeT_small (f : Nat) (h : f < 2 ^ 31) : toSizeT (f : Int) = f := by
  unfold toSizeT
  have h1 : (f : Int) % 2 ^ 64 = (f : Int) := by
    apply Int.emod_eq_of_lt <;> omega
  rw [h1]
  simp

theorem printLoop_sorted (l : List (Node K V)) (last : Nat) (hlast : last < 2 ^ 31)
    (hsmall : ∀ n ∈ l, n.info.mFreq < 2 ^ 31)
    (hge : ∀ n ∈ l, last ≤ n.info.mFreq) (hs : SortedByFreq l) :
    printLoop (last : Int) l = true := by
  induction l generalizing last with
  | nil => rfl
  | cons n rest ih =>
    unfold SortedByFreq at hs
    obtain ⟨hn, hrest⟩ := List.pairwise_cons.mp hs
    unfold printLoop
    rw [toSizeT_small last hlast, toInt32_small _ (hsmall n (List.mem_cons_self _ _))]
    simp only [Bool.and_eq_true, decide_eq_true_eq]
    refine ⟨hge n (List.mem_cons_self _ _), ?_⟩
    exact ih _ (hsmall n (List.mem_cons_self _ _))
      (fun m hm => hsmall m (List.mem_cons_of_mem _ hm)) hn hrest

/-! ## The weight (I4) -/

theorem sumWeights_perm (l1 l2 : List (Node K V)) (h : (l1.map core).Perm (l2.map core)) :
    sumWeights l1 = sumWeights l2 := by
  have h1 : ∀ l : List (Node K V), sumWeights l = ((l.map core).map (fun p => p.2.2.2)).sum := by
    intro l; simp only [sumWeights, List.map_map]; rfl
  rw [h1, h1]
  exact (h.map _).sum_eq

theorem weight_get [Zero V] (c c2 : CLFU K V) (now : Int) (k : K) (n : Nat) (r : V)
    (h : get c now k n = some (c2, r)) :
    c2.mCurWeight = c.mCurWeight ∧ c2.mMaxWeight = c.mMaxWeight ∧
    sumWeights c2.mVals = sumWeights c.mVals := by
  obtain ⟨_, h2, h3, _, _, hperm⟩ := get_frame c c2 now k n r h
  exact ⟨h2, h3, sumWeights_perm _ _ hperm⟩

/-- The method `put` on an absent key, on a state with `mCurWeight` the sum of
the weights, when the addition of the new weight does not wrap. -/
theorem put_eq [DecidableEq K] (c : CLFU K V) (k : K) (v : V) (w f : Nat)
    (hk : c.mIndex k = none) (hsum : c.mCurWeight = sumWeights c.mVals)
    (hw : w ≤ c.mMaxWeight) (hfit : c.mCurWeight + w < SIZE_MOD) :
    ∃ removed retained, c.mVals = removed ++ retained ∧
      put c k v w f = some (push { c with
        mCurWeight := sumWeights retained + w
        mIndex := eraseKeys c.mIndex removed
        mVals := retained } { mFreq := f, mWeight := w, mKey := k, mVal := v }) ∧
      sumWeights retained + w ≤ c.mMaxWeight ∧
      (∀ p q, removed = p ++ q → q ≠ [] → c.mMaxWeight < sumWeights (q ++ retained) + w) := by
  have hadd : addSize c.mCurWeight w = c.mCurWeight + w := Nat.mod_eq_of_lt hfit
  obtain ⟨removed, retained, h1, h2, h3, h4⟩ :=
    evictLoop_eq (c.mVals.length + 1) { c with mCurWeight := addSize c.mCurWeight w } w
      (Nat.lt_succ_self _) (by simp only [hadd]; rw [hsum]) hw (by simp only [hadd]; exact hfit)
  refine ⟨removed, retained, h1, ?_, h3, h4⟩
  rw [put_absent c k v w f hk, h2]
  rfl

theorem weight_put [DecidableEq K] (c c1 : CLFU K V) (k : K) (v : V) (w f : Nat)
    (hsum : c.mCurWeight = sumWeights c.mVals) (hle : c.mCurWeight ≤ c.mMaxWeight)
    (hfit : weightFits c (.put k v w f) = true)
    (h : put c k v w f = some c1) :
    c1.mCurWeight = sumWeights c1.mVals ∧ c1.mCurWeight ≤ c1.mMaxWeight := by
  cases hk : c.mIndex k with
  | some a =>
    rw [put_present c k v w f a hk] at h
    simp only [Option.some.injEq] at h
    rw [← h]; exact ⟨hsum, hle⟩
  | none =>
    simp only [weightFits, Bool.and_eq_true, decide_eq_true_eq] at hfit
    obtain ⟨removed, retained, _, h2, h3, _⟩ := put_eq c k v w f hk hsum hfit.1 hfit.2
    rw [h2] at h
    simp only [Option.some.injEq] at h
    rw [← h]
    constructor
    · have hp := push_perm { c with
        mCurWeight := sumWeights retained + w
        mIndex := eraseKeys c.mIndex removed
        mVals := retained } { mFreq := f, mWeight := w, mKey := k, mVal := v }
      have := sumWeights_perm _ _ (hp.map core)
      rw [this, sumWeights_cons]
      simp only [push]
      omega
    · exact h3

theorem weight_run [DecidableEq K] [Zero V] (ops : List (Op K V)) (c c1 : CLFU K V)
    (hsum : c.mCurWeight = sumWeights c.mVals) (hle : c.mCurWeight ≤ c.mMaxWeight)
    (hfit : eachCall weightFits c ops = true) (h : run c ops = some c1) :
    c1.mCurWeight = sumWeights c1.mVals ∧ c1.mCurWeight ≤ c1.mMaxWeight := by
  induction ops generalizing c with
  | nil =>
    simp only [run, Option.some.injEq] at h
    subst h
    exact ⟨hsum, hle⟩
  | cons op ops ih =>
    simp only [run] at h
    cases hst : step c op with
    | none => simp [hst] at h
    | some c2 =>
      simp only [hst, Option.some_bind] at h
      simp only [eachCall, hst, Bool.and_eq_true] at hfit
      have h2 : c2.mCurWeight = sumWeights c2.mVals ∧ c2.mCurWeight ≤ c2.mMaxWeight := by
        cases op with
        | put k v w f => exact weight_put c c2 k v w f hsum hle hfit.1 hst
        | get now k n =>
          simp only [step] at hst
          cases hg : get c now k n with
          | none => simp [hg] at hst
          | some p =>
            obtain ⟨c3, r⟩ := p
            simp only [hg, Option.map_some', Option.some.injEq] at hst
            subst hst
            obtain ⟨g1, g2, g3⟩ := weight_get c c3 now k n r hg
            rw [g1, g2, g3]
            exact ⟨hsum, hle⟩
      exact ih c2 h2.1 h2.2 hfit.2 h

/-! ## Claims -/

/-- C1 at a failing input. After `put a`, `put b` (frequency 1 each) the call
`get(b, 2^64 - 1)` wraps the frequency of `b` to 0 and leaves the sequence
`a(1), b(0)`, which is not sorted, and the assertion of `print()` fails on it;
and on the sorted sequence `a(2^31), b(2^31)`, reached by two calls of `put`,
the assertion of `print()` fails as well, because `last_freq` is an `int`. -/
theorem C1_print_assertion_fails :
    (run (CLFU.new 3 30 0 0 : CLFU String Nat)
        [.put "a" 1 1 1, .put "b" 2 1 1, .get 0 "b" (2 ^ 64 - 1)]).map
      (fun c => (contents c, decide (SortedByFreq c.mVals), print c))
      = some ([("a", 1, 1), ("b", 2, 0)], false, false) ∧
    (run (CLFU.new 3 30 0 0 : CLFU String Nat)
        [.put "a" 1 1 (2 ^ 31), .put "b" 2 1 (2 ^ 31)]).map
      (fun c => (contents c, decide (SortedByFreq c.mVals), print c))
      = some ([("a", 1, 2 ^ 31), ("b", 2, 2 ^ 31)], true, false) := by
  decide

/-- The order where no frequency wraps: in every state reached from a newly
constructed cache by `put` and `get` calls none of which wraps the frequency it
increments, for every other choice of arguments and every clock reading, the
sequence read head to tail has non-decreasing frequency; and when all
frequencies are below `2^31` the assertion of `print()` does not fail. -/
theorem order_invariant_no_wrap [DecidableEq K] [Zero V] (w : Nat) (t now0 : Int) (g : Nat)
    (ops : List (Op K V)) (c : CLFU K V)
    (hfit : eachCall freqFits (CLFU.new w t now0 g) ops = true)
    (h : run (CLFU.new w t now0 g) ops = some c) :
    SortedByFreq c.mVals ∧ ((∀ n ∈ c.mVals, n.info.mFreq < 2 ^ 31) → print c = true) := by
  have hs := (sorted_run ops _ c (heapOk_new w t now0 g)
    (by simp [CLFU.new, SortedByFreq]) hfit h).2
  refine ⟨hs, fun hsmall => ?_⟩
  exact printLoop_sorted c.mVals 0 (by norm_num) hsmall (fun _ _ => Nat.zero_le _) hs

/-- The order where no frequency wraps, on the scenario. -/
theorem order_invariant_no_wrap_example :
    eachCall freqFits scenarioStart scenarioOps = true ∧
    run scenarioStart scenarioOps = some scenarioEnd ∧
    SortedByFreq scenarioEnd.mVals ∧
    ((∀ n ∈ scenarioEnd.mVals, n.info.mFreq < 2 ^ 31) → print scenarioEnd = true) :=
  ⟨by decide, rfl,
    order_invariant_no_wrap 3 30 0 0 scenarioOps scenarioEnd (by decide) rfl⟩

/-- C2, as stated, fails. With `maxWeight = 2^64 - 1` two insertions of weight
`2^64 - 1` both stay: `mCurWeight` wraps to `2^64 - 2` while the weights sum to
`2^65 - 2`. And when the member `mCurWeight`, which the constructor does not
initialise, starts at 1, one insertion of weight 1 leaves `mCurWeight = 2`. -/
theorem C2_counterexample :
    (run (CLFU.new (2 ^ 64 - 1) 30 0 0 : CLFU String Nat)
        [.put "a" 1 (2 ^ 64 - 1) 1, .put "b" 2 (2 ^ 64 - 1) 1]).map
      (fun c => (contents c, c.mCurWeight, sumWeights c.mVals))
      = some ([("a", 1, 1), ("b", 2, 1)], 2 ^ 64 - 2, 2 ^ 65 - 2) ∧
    (run (CLFU.new 3 30 0 1 : CLFU String Nat) [.put "a" 1 1 1]).map
      (fun c => (contents c, c.mCurWeight, sumWeights c.mVals))
      = some ([("a", 1, 1)], 2, 1) := by
  decide

/-- C2 (amended): starting from a newly constructed cache whose `mCurWeight`
starts at 0, after any sequence of `put` and `get` calls in which every `put`
has a weight of at most `maxWeight` and does not wrap `mCurWeight`
(`mCurWeight + weight < 2^64`), `mCurWeight` is the sum of the weights of the
entries of the sequence and is at most `maxWeight`. -/
theorem C2_weight_invariant [DecidableEq K] [Zero V] (w : Nat) (t now0 : Int)
    (ops : List (Op K V)) (c : CLFU K V)
    (hfit : eachCall weightFits (CLFU.new w t now0 0) ops = true)
    (h : run (CLFU.new w t now0 0) ops = some c) :
    c.mCurWeight = sumWeights c.mVals ∧ c.mCurWeight ≤ c.mMaxWeight :=
  weight_run ops _ c (by simp [CLFU.new, sumWeights]) (by simp [CLFU.new]) hfit h

/-- C2 (amended), on the scenario. -/
theorem C2_weight_invariant_witness :
    eachCall weightFits (CLFU.new 3 30 0 0) scenarioOps = true ∧
    run (CLFU.new 3 30 0 0) scenarioOps = some scenarioEnd ∧
    scenarioEnd.mCurWeight = sumWeights scenarioEnd.mVals ∧
    scenarioEnd.mCurWeight ≤ scenarioEnd.mMaxWeight :=
  ⟨by decide, rfl, C2_weight_invariant 3 30 0 scenarioOps scenarioEnd (by decide) rfl⟩


/-! ### C3 -/

theorem clockDefined_iff (c : CLFU K V) (now : Int) :
    clockDefined c now = true ↔ ∃ dec, shiftCount c now = some dec ∧ 0 ≤ dec := by
  unfold clockDefined
  cases shiftCount c now with
  | none => simp
  | some d => simp

theorem toInt32_of_range (x : Int) (h0 : 0 ≤ x) (h1 : x < 2 ^ 31) : toInt32 x = x := by
  unfold toInt32
  have h2 : (x + 2 ^ 31) % 2 ^ 32 = x + 2 ^ 31 := by
    apply Int.emod_eq_of_lt <;> omega
  omega

/-- The shift count of `timeout()` for a positive time-out, a clock that has
not gone back, and a quotient that fits an `int`. -/
theorem shiftCount_eq (c : CLFU K V) (now : Int) (hT : 1 ≤ c.mTimeOut)
    (hel : 0 ≤ now - c.mTimeStamp) (hq : (now - c.mTimeStamp) / c.mTimeOut < 2 ^ 31) :
    shiftCount c now = some (min ((now - c.mTimeStamp) / c.mTimeOut) 31) := by
  unfold shiftCount timeout
  simp only
  by_cases hlt : now - c.mTimeStamp < c.mTimeOut
  · rw [if_pos hlt, Int.ediv_eq_zero_of_lt hel hlt]
    rfl
  · have hT0 : ¬ c.mTimeOut = 0 := by omega
    rw [if_neg hlt, if_neg hT0, Int.tdiv_eq_ediv hel (by omega)]
    have hq0 : 0 ≤ (now - c.mTimeStamp) / c.mTimeOut := Int.ediv_nonneg hel (by omega)
    rw [toInt32_of_range _ hq0 hq]
    simp only [Option.map_some', Option.some.injEq]
    split_ifs <;> omega

/-- A defined call of `get` on the key of an entry of the sequence returns the
value of that entry. -/
theorem get_of_mem [Zero V] (c : CLFU K V) (now : Int) (k : K) (n : Nat) (x : Node K V)
    (hh : HeapOk c) (hx : x ∈ c.mVals) (hk : c.mIndex k = some x.addr)
    (hclock : clockDefined c now = true) :
    ∃ c2, get c now k n = some (c2, x.info.mVal) := by
  obtain ⟨dec, hs, hdec⟩ := (clockDefined_iff c now).mp hclock
  obtain ⟨pre, post, hv⟩ := List.append_of_mem hx
  exact ⟨_, get_eq c now dec k n pre post x hk hv hh.nodup hs hdec⟩

/-- The eviction loop of `put` ends without undefined behaviour when
`mCurWeight` is the sum of the weights and the new weight is at most
`maxWeight`. -/
theorem evictLoop_defined [DecidableEq K] (c : CLFU K V) (w : Nat) (hwt : WeightOk c)
    (hw : w ≤ c.mMaxWeight) :
    ∃ c2, evictLoop (c.mVals.length + 1) { c with mCurWeight := addSize c.mCurWeight w }
      = some c2 := by
  by_cases hfit : c.mCurWeight + w < SIZE_MOD
  · have hadd : addSize c.mCurWeight w = c.mCurWeight + w := Nat.mod_eq_of_lt hfit
    obtain ⟨removed, retained, _, h2, _⟩ :=
      evictLoop_eq (c.mVals.length + 1) { c with mCurWeight := addSize c.mCurWeight w } w
        (Nat.lt_succ_self _) (by simp only [hadd]; rw [hwt.1]) hw (by simp only [hadd]; exact hfit)
    exact ⟨_, h2⟩
  · have hle : addSize c.mCurWeight w ≤ c.mMaxWeight := by
      unfold addSize
      have h1 : SIZE_MOD ≤ c.mCurWeight + w := by omega
      rw [Nat.mod_eq_sub_mod h1]
      have h2 := Nat.mod_le (c.mCurWeight + w - SIZE_MOD) SIZE_MOD
      have h3 := hwt.2
      omega
    refine ⟨{ c with mCurWeight := addSize c.mCurWeight w }, ?_⟩
    unfold evictLoop
    rw [if_neg (by simp only; omega)]

/-- The ageing step of `get` is defined for a positive time-out, a clock that
has not gone back and a quotient that fits an `int`. -/
theorem clockDefined_of_range (c : CLFU K V) (now : Int) (hT : 1 ≤ c.mTimeOut)
    (hel : 0 ≤ now - c.mTimeStamp) (hq : (now - c.mTimeStamp) / c.mTimeOut < 2 ^ 31) :
    clockDefined c now = true := by
  rw [clockDefined_iff]
  refine ⟨_, shiftCount_eq c now hT hel hq, ?_⟩
  have := Int.ediv_nonneg hel (show (0 : Int) ≤ c.mTimeOut by omega)
  omega

/-- C3, as stated, fails. The cache built with a time-out of 0 satisfies the
invariants after `put(a, 7)`, but the call `get(a)` that follows divides by
zero in `timeout()` and returns nothing. -/
theorem C3_counterexample :
    (run (CLFU.new 3 0 0 0 : CLFU String Nat) [.put "a" 7 1 1]).map
      (fun c => (contents c, c.mCurWeight, decide (SortedByFreq c.mVals),
        (get c 0 "a" 1).map Prod.snd))
      = some ([("a", 7, 1)], 1, true, none) := by
  decide

/-- C3 (amended): for every cache state satisfying the invariants (distinct
nodes, I3, I4), every key `k` absent from it and every weight of at most
`maxWeight`, `put(k, v, weight, freq)` returns, afterwards `k` is present, and
a following `get(k)` returns `v` at every clock reading at which the ageing
step of `get` is defined (time-out not zero or not yet elapsed, shift count
not negative); more generally such a `get` on the key of an entry `x` of the
sequence returns the value of `x`, and `x` is the only entry with that key. -/
theorem C3_put_get_round_trip [DecidableEq K] [Zero V] (c : CLFU K V) (k : K) (v : V)
    (w f : Nat) (hh : HeapOk c) (hi : IndexOk c) (hwt : WeightOk c)
    (hk : c.mIndex k = none) (hw : w ≤ c.mMaxWeight) :
    (∃ c1, put c k v w f = some c1 ∧ (c1.mIndex k).isSome = true ∧
      ∀ now n, clockDefined c1 now = true → ∃ c2, get c1 now k n = some (c2, v)) ∧
    (∀ x ∈ c.mVals, (c.mIndex x.info.mKey).isSome = true ∧
      (∀ y ∈ c.mVals, y.info.mKey = x.info.mKey → y = x) ∧
      ∀ now n, clockDefined c now = true →
        ∃ c2, get c now x.info.mKey n = some (c2, x.info.mVal)) := by
  constructor
  · obtain ⟨c2, he⟩ := evictLoop_defined c w hwt hw
    have hput : put c k v w f
        = some (push c2 { mFreq := f, mWeight := w, mKey := k, mVal := v }) := by
      rw [put_absent c k v w f hk, he]; rfl
    refine ⟨_, hput, by simp [push], ?_⟩
    intro now n hclock
    have hh1 := heapOk_put c _ k v w f hh hput
    have hmem : ({ addr := c2.mHeap, info := { mFreq := f, mWeight := w, mKey := k, mVal := v } }
        : Node K V) ∈ (push c2 { mFreq := f, mWeight := w, mKey := k, mVal := v }).mVals :=
      (push_perm c2 _).symm.subset (List.mem_cons_self _ _)
    exact get_of_mem _ now k n _ hh1 hmem (by simp [push]) hclock
  · intro x hx
    have hidx : c.mIndex x.info.mKey = some x.addr := (hi _ _).mpr ⟨x, hx, rfl, rfl⟩
    refine ⟨by simp [hidx], ?_, fun now n hclock => get_of_mem c now _ n x hh hx hidx hclock⟩
    intro y hy hyk
    have hidy : c.mIndex x.info.mKey = some y.addr := (hi _ _).mpr ⟨y, hy, rfl, hyk⟩
    rw [hidx] at hidy
    simp only [Option.some.injEq] at hidy
    have hinj := List.inj_on_of_nodup_map hh.nodup
    exact hinj hy hx hidy.symm


theorem inv_run [DecidableEq K] [Zero V] (ops : List (Op K V)) (c c1 : CLFU K V)
    (hh : HeapOk c) (hi : IndexOk c) (h : run c ops = some c1) : HeapOk c1 ∧ IndexOk c1 := by
  induction ops generalizing c with
  | nil =>
    simp only [run, Option.some.injEq] at h
    subst h
    exact ⟨hh, hi⟩
  | cons op ops ih =>
    simp only [run] at h
    cases hst : step c op with
    | none => simp [hst] at h
    | some c2 =>
      simp only [hst, Option.some_bind] at h
      have h2 : HeapOk c2 ∧ IndexOk c2 := by
        cases op with
        | put k v w f => exact ⟨heapOk_put c c2 k v w f hh hst, indexOk_put c c2 k v w f hh hi hst⟩
        | get now k n =>
          simp only [step] at hst
          cases hg : get c now k n with
          | none => simp [hg] at hst
          | some p =>
            obtain ⟨c3, r⟩ := p
            simp only [hg, Option.map_some', Option.some.injEq] at hst
            subst hst
            exact ⟨heapOk_get c c3 now k n r hh hg, indexOk_get c c3 now k n r hi hg⟩
      exact ih c2 h2.1 h2.2 h

theorem scenarioMid_inv : HeapOk scenarioMid ∧ IndexOk scenarioMid :=
  inv_run (scenarioOps.take 4) scenarioStart scenarioMid (heapOk_new 3 30 0 0)
    (indexOk_new 3 30 0 0) rfl

/-- C3 (amended), on the cache `b(1), c(1), a(2)` of the scenario and the
insertion of `d`. -/
theorem C3_put_get_round_trip_witness :
    HeapOk scenarioMid ∧ IndexOk scenarioMid ∧ WeightOk scenarioMid ∧
    scenarioMid.mIndex "d" = none ∧ 1 ≤ scenarioMid.mMaxWeight ∧
    ((∃ c1, put scenarioMid "d" 4 1 1 = some c1 ∧ (c1.mIndex "d").isSome = true ∧
      ∀ now n, clockDefined c1 now = true → ∃ c2, get c1 now "d" n = some (c2, 4)) ∧
    (∀ x ∈ scenarioMid.mVals, (scenarioMid.mIndex x.info.mKey).isSome = true ∧
      (∀ y ∈ scenarioMid.mVals, y.info.mKey = x.info.mKey → y = x) ∧
      ∀ now n, clockDefined scenarioMid now = true →
        ∃ c2, get scenarioMid now x.info.mKey n = some (c2, x.info.mVal))) :=
  ⟨scenarioMid_inv.1, scenarioMid_inv.2, by decide, by decide, by decide,
    C3_put_get_round_trip scenarioMid "d" 4 1 1 scenarioMid_inv.1 scenarioMid_inv.2
      (by decide) (by decide) (by decide)⟩


/-! ### C4 -/

/-- C4, as stated, fails. In the cache holding the key `a` with the value 0,
`get` on the absent key `zz` returns 0, the very result of `get` on the present
key `a`. -/
theorem C4_counterexample :
    (run (CLFU.new 3 30 0 0 : CLFU String Nat) [.put "a" 0 1 1]).map
      (fun c => (c.mIndex "zz", (get c 0 "zz" 1).map Prod.snd, (c.mIndex "a").isSome,
        (get c 0 "a" 1).map Prod.snd))
      = some (none, some 0, true, some 0) := by
  decide

/-- C4 (amended): for every cache state and every key not present in the index,
`get` returns the value `VALUE(0)`; this is the result of `get` on a present key
whose value is 0. -/
theorem C4_missing_key [Zero V] (c : CLFU K V) (now : Int) (k : K) (n : Nat)
    (hk : c.mIndex k = none) : (get c now k n).map Prod.snd = some 0 := by
  rw [get_absent c now k n hk]
  rfl

/-- C4 (amended), on the cache `b(1), c(1), a(2)` of the scenario and the key
`zz`. -/
theorem C4_missing_key_witness :
    scenarioMid.mIndex "zz" = none ∧ (get scenarioMid 0 "zz" 1).map Prod.snd = some 0 :=
  ⟨by decide, C4_missing_key scenarioMid 0 "zz" 1 (by decide)⟩

/-! ### C5 -/

/-- C5: `put` on a key that is present returns with the whole state (sequence,
`mCurWeight`, time stamp, index) unchanged, whatever the value, weight and
frequency passed; hence `put(k, v1, w1, f1)` followed by `put(k, v2, w2, f2)`
is `put(k, v1, w1, f1)` alone. -/
theorem C5_idempotent_put [DecidableEq K] (c : CLFU K V) (k : K) (v1 v2 : V)
    (w1 f1 w2 f2 : Nat) :
    ((c.mIndex k).isSome = true → put c k v2 w2 f2 = some c) ∧
    (put c k v1 w1 f1).bind (fun c1 => put c1 k v2 w2 f2) = put c k v1 w1 f1 := by
  constructor
  · intro hk
    cases h : c.mIndex k with
    | none => simp [h] at hk
    | some a => exact put_present c k v2 w2 f2 a h
  · cases hk : c.mIndex k with
    | some a =>
      rw [put_present c k v1 w1 f1 a hk]
      exact put_present c k v2 w2 f2 a hk
    | none =>
      rw [put_absent c k v1 w1 f1 hk]
      cases evictLoop (c.mVals.length + 1) { c with mCurWeight := addSize c.mCurWeight w1 } with
      | none => rfl
      | some c2 =>
        simp only [Option.map_some', Option.some_bind]
        exact put_present _ k v2 w2 f2 c2.mHeap (by simp [push])

/-- C5, on the cache `b(1), c(1), a(2)` of the scenario: `put` on the present
key `a` with a weight above `maxWeight`, and two `put` on the absent key `d`. -/
theorem C5_idempotent_put_witness :
    (scenarioMid.mIndex "a").isSome = true ∧
    put scenarioMid "a" 9 100 7 = some scenarioMid ∧
    (put scenarioMid "d" 4 1 1).bind (fun c1 => put c1 "d" 9 100 7)
      = put scenarioMid "d" 4 1 1 :=
  ⟨by decide, (C5_idempotent_put scenarioMid "a" 4 9 1 1 100 7).1 (by decide),
    (C5_idempotent_put scenarioMid "d" 4 9 1 1 100 7).2⟩


/-! ### C6 -/

/-- C6, as stated, fails. On the sorted cache `a` of weight `2^64 - 1` with
`maxWeight = 2^64 - 1`, `put` of `b` with the same weight wraps `mCurWeight` and
removes nothing, though the two weights together exceed `maxWeight`. And on the
sorted cache `a, b` whose `mCurWeight` is 3 instead of 2 (the member started at
1), `put` of `c` with weight 1 removes `a`, though the three entries fit. -/
theorem C6_counterexample :
    (run (CLFU.new (2 ^ 64 - 1) 30 0 0 : CLFU String Nat)
        [.put "a" 1 (2 ^ 64 - 1) 1, .put "b" 2 (2 ^ 64 - 1) 1]).map
      (fun c => (contents c, decide (sumWeights c.mVals ≤ c.mMaxWeight)))
      = some ([("a", 1, 1), ("b", 2, 1)], false) ∧
    (run (CLFU.new 3 30 0 1 : CLFU String Nat)
        [.put "a" 1 1 1, .put "b" 2 1 1, .put "c" 3 1 1]).map
      (fun c => (contents c, sumWeights c.mVals))
      = some ([("b", 2, 1), ("c", 3, 1)], 2) := by
  decide

/-- C6 (amended): for every sorted cache state satisfying I3 and I4 and every
`put` of an absent key with a weight of at most `maxWeight` that does not wrap
`mCurWeight`, the entries `put` removes are exactly the shortest prefix
`removed` of the sequence whose removal makes the remaining weight plus the new
weight fit in `maxWeight`; the sequence afterwards is the rest `retained` with
the new entry linked in; each removed entry has its weight subtracted and its
key made absent, and has a frequency of at most that of every retained entry. -/
theorem C6_eviction_policy [DecidableEq K] (c : CLFU K V) (k : K) (v : V) (w f : Nat)
    (hs : SortedByFreq c.mVals) (hh : HeapOk c) (hi : IndexOk c)
    (hsum : c.mCurWeight = sumWeights c.mVals)
    (hk : c.mIndex k = none) (hw : w ≤ c.mMaxWeight)
    (hfit : c.mCurWeight + w < SIZE_MOD) :
    ∃ removed retained c1,
      c.mVals = removed ++ retained ∧
      put c k v w f = some c1 ∧
      c1.mVals = retained.takeWhile (notAbove f) ++
        { addr := c.mHeap, info := { mFreq := f, mWeight := w, mKey := k, mVal := v } } ::
          retained.dropWhile (notAbove f) ∧
      sumWeights retained + w ≤ c.mMaxWeight ∧
      (∀ p q, removed = p ++ q → q ≠ [] → c.mMaxWeight < sumWeights (q ++ retained) + w) ∧
      c1.mCurWeight = c.mCurWeight - sumWeights removed + w ∧
      (∀ e ∈ removed, c1.mIndex e.info.mKey = none) ∧
      (∀ e ∈ removed, ∀ r ∈ retained, e.info.mFreq ≤ r.info.mFreq) := by
  obtain ⟨removed, retained, h1, h2, h3, h4⟩ := put_eq c k v w f hk hsum hw hfit
  refine ⟨removed, retained, _, h1, h2, ?_, h3, h4, ?_, ?_, ?_⟩
  · have hnd : (addrs retained).Nodup := by
      have := hh.nodup
      rw [h1, addrs_append] at this
      exact (List.nodup_append.mp this).2.1
    exact push_vals { c with
      mCurWeight := sumWeights retained + w
      mIndex := eraseKeys c.mIndex removed
      mVals := retained } _ hnd
  · simp only [push]
    rw [hsum, h1, sumWeights_append]
    omega
  · intro e he
    have hek : e.info.mKey ≠ k := by
      intro hek
      have := (hi e.info.mKey e.addr).mpr
        ⟨e, by rw [h1]; exact List.mem_append_left _ he, rfl, rfl⟩
      rw [hek, hk] at this
      cases this
    simp only [push]
    rw [Function.update_noteq hek]
    exact eraseKeys_mem _ _ e he
  · intro e he r hr
    unfold SortedByFreq at hs
    rw [h1] at hs
    exact (List.pairwise_append.mp hs).2.2 e he r hr

/-- The invariants of the cache `b(1), c(1), a(2)` of the scenario. -/
theorem scenarioMid_sorted :
    SortedByFreq scenarioMid.mVals ∧ scenarioMid.mCurWeight = sumWeights scenarioMid.mVals ∧
    scenarioMid.mIndex "d" = none ∧ 1 ≤ scenarioMid.mMaxWeight ∧
    scenarioMid.mCurWeight + 1 < SIZE_MOD := by
  decide

/-- C6 (amended), on the scenario: `maxWeight = 3`, after `put` of `a`, `b`,
`c` (weight 1, frequency 1) and `get(a)`, `put` of `d` evicts exactly `b` and
leaves the sequence `c(1), d(1), a(2)`. -/
theorem C6_eviction_policy_witness :
    (SortedByFreq scenarioMid.mVals ∧ HeapOk scenarioMid ∧ IndexOk scenarioMid ∧
      scenarioMid.mCurWeight = sumWeights scenarioMid.mVals ∧
      scenarioMid.mIndex "d" = none ∧ 1 ≤ scenarioMid.mMaxWeight ∧
      scenarioMid.mCurWeight + 1 < SIZE_MOD) ∧
    (contents scenarioMid = [("b", 2, 1), ("c", 3, 1), ("a", 1, 2)] ∧
      (put scenarioMid "d" 4 1 1).map contents
        = some [("c", 3, 1), ("d", 4, 1), ("a", 1, 2)]) ∧
    ∃ removed retained c1,
      scenarioMid.mVals = removed ++ retained ∧
      put scenarioMid "d" 4 1 1 = some c1 ∧
      c1.mVals = retained.takeWhile (notAbove 1) ++
        { addr := scenarioMid.mHeap,
          info := { mFreq := 1, mWeight := 1, mKey := "d", mVal := 4 } } ::
          retained.dropWhile (notAbove 1) ∧
      sumWeights retained + 1 ≤ scenarioMid.mMaxWeight ∧
      (∀ p q, removed = p ++ q → q ≠ [] →
        scenarioMid.mMaxWeight < sumWeights (q ++ retained) + 1) ∧
      c1.mCurWeight = scenarioMid.mCurWeight - sumWeights removed + 1 ∧
      (∀ e ∈ removed, c1.mIndex e.info.mKey = none) ∧
      (∀ e ∈ removed, ∀ r ∈ retained, e.info.mFreq ≤ r.info.mFreq) :=
  ⟨⟨scenarioMid_sorted.1, scenarioMid_inv.1, scenarioMid_inv.2, scenarioMid_sorted.2⟩,
    by decide,
    C6_eviction_policy scenarioMid "d" 4 1 1 scenarioMid_sorted.1 scenarioMid_inv.1
      scenarioMid_inv.2 scenarioMid_sorted.2.1 scenarioMid_sorted.2.2.1
      scenarioMid_sorted.2.2.2.1 scenarioMid_sorted.2.2.2.2⟩


/-! ### C7 -/

theorem pairwise_insert {α : Type} (R : α → α → Prop) (l1 l2 : List α) (x : α)
    (hs : (l1 ++ l2).Pairwise R) (h1 : ∀ a ∈ l1, R a x) (h2 : ∀ b ∈ l2, R x b) :
    (l1 ++ x :: l2).Pairwise R := by
  rw [List.pairwise_append] at hs ⊢
  obtain ⟨hs1, hs2, hs3⟩ := hs
  refine ⟨hs1, List.pairwise_cons.mpr ⟨h2, hs2⟩, ?_⟩
  intro a ha b hb
  rcases List.mem_cons.mp hb with hb1 | hb1
  · rw [hb1]; exact h1 a ha
  · exact hs3 a ha b hb1

theorem fifo_put [DecidableEq K] (c c1 : CLFU K V) (k : K) (v : V) (w f : Nat)
    (hh : HeapOk c) (hs : SortedByFreq c.mVals) (hf : FifoByBucket c.mVals)
    (h : put c k v w f = some c1) : FifoByBucket c1.mVals := by
  cases hk : c.mIndex k with
  | some a =>
    rw [put_present c k v w f a hk] at h
    simp only [Option.some.injEq] at h
    rw [← h]; exact hf
  | none =>
    rw [put_absent c k v w f hk] at h
    cases he : evictLoop (c.mVals.length + 1) { c with mCurWeight := addSize c.mCurWeight w } with
    | none => simp [he] at h
    | some c2 =>
      simp only [he, Option.map_some', Option.some.injEq] at h
      rw [← h]
      have hh0 : HeapOk { c with mCurWeight := addSize c.mCurWeight w } := ⟨hh.nodup, hh.fresh⟩
      have hh2 := heapOk_evictLoop _ _ c2 hh0 he
      obtain ⟨removed, h1, _⟩ := evictLoop_some _ _ c2 he
      simp only at h1
      have hs2 : SortedByFreq c2.mVals := by
        unfold SortedByFreq at hs ⊢
        rw [h1] at hs
        exact (List.pairwise_append.mp hs).2.1
      have hf2 : FifoByBucket c2.mVals := by
        unfold FifoByBucket at hf ⊢
        rw [h1] at hf
        exact (List.pairwise_append.mp hf).2.1
      rw [push_vals c2 _ hh2.nodup]
      unfold FifoByBucket
      apply pairwise_insert
      · rw [List.takeWhile_append_dropWhile]; exact hf2
      · intro a ha _
        have hsub : (c2.mVals.takeWhile (notAbove f)).Sublist c2.mVals :=
          List.takeWhile_sublist _
        exact hh2.fresh a.addr (List.mem_map_of_mem _ (hsub.subset ha))
      · intro b hb hfb
        have hlt : f < b.info.mFreq := sorted_dropWhile_above _ _ hs2 b hb
        exfalso
        have hfb2 : f = b.info.mFreq := hfb
        omega

theorem fifo_run [DecidableEq K] [Zero V] (ops : List (Op K V)) (c c1 : CLFU K V)
    (hh : HeapOk c) (hs : SortedByFreq c.mVals) (hf : FifoByBucket c.mVals)
    (hputs : putsOnly ops = true) (h : run c ops = some c1) :
    HeapOk c1 ∧ FifoByBucket c1.mVals := by
  induction ops generalizing c with
  | nil =>
    simp only [run, Option.some.injEq] at h
    subst h
    exact ⟨hh, hf⟩
  | cons op ops ih =>
    cases op with
    | get now k n => simp [putsOnly] at hputs
    | put k v w f =>
      simp only [putsOnly] at hputs
      simp only [run, step] at h
      cases hst : put c k v w f with
      | none => simp [hst] at h
      | some c2 =>
        simp only [hst, Option.some_bind] at h
        exact ih c2 (heapOk_put c c2 k v w f hh hst) (sorted_put c c2 k v w f hh hs hst)
          (fifo_put c c2 k v w f hh hs hf hst) hputs h

/-- An entry that `put` evicts takes with it every entry nearer the head. -/
theorem put_evicts_head_first [DecidableEq K] (c c1 : CLFU K V) (k : K) (v : V) (w f : Nat)
    (hh : HeapOk c) (pre post : List (Node K V)) (x y : Node K V)
    (hv : c.mVals = pre ++ x :: post) (hy : y ∈ post)
    (h : put c k v w f = some c1) (hgone : y ∉ c1.mVals) : x ∉ c1.mVals := by
  cases hk : c.mIndex k with
  | some a =>
    rw [put_present c k v w f a hk] at h
    simp only [Option.some.injEq] at h
    rw [← h, hv] at hgone
    exact absurd (List.mem_append_right _ (List.mem_cons_of_mem _ hy)) hgone
  | none =>
    rw [put_absent c k v w f hk] at h
    cases he : evictLoop (c.mVals.length + 1) { c with mCurWeight := addSize c.mCurWeight w } with
    | none => simp [he] at h
    | some c2 =>
      simp only [he, Option.map_some', Option.some.injEq] at h
      obtain ⟨removed, h1, _, h3, _⟩ := evictLoop_some _ _ c2 he
      simp only at h1 h3
      have hperm := push_perm c2 { mFreq := f, mWeight := w, mKey := k, mVal := v }
      rw [h] at hperm
      have hy2 : y ∉ c2.mVals := fun hm => hgone (hperm.symm.subset (List.mem_cons_of_mem _ hm))
      have hnd := hh.nodup
      rw [hv] at hnd
      have hnd2 : (pre ++ x :: post).Nodup := List.Nodup.of_map _ hnd
      -- `y` is in `removed`, at a position behind `x`
      intro hx
      rcases List.mem_cons.mp (hperm.subset hx) with hx1 | hx1
      · have := hh.fresh x.addr (by rw [hv]; simp [addrs])
        rw [hx1, h3] at this
        simp only at this
        omega
      · -- `x` retained, `y` removed: `y` would precede `x`
        have hyr : y ∈ removed := by
          have : y ∈ removed ++ c2.mVals := by
            rw [← h1, hv]; exact List.mem_append_right _ (List.mem_cons_of_mem _ hy)
          rcases List.mem_append.mp this with hr | hr
          · exact hr
          · exact absurd hr hy2
        have hnd3 : (removed ++ c2.mVals).Nodup := by rw [← h1, hv]; exact hnd2
        have hp1 : removed <+: pre ++ x :: post := ⟨c2.mVals, by rw [← hv, h1]⟩
        have hp2 : pre <+: pre ++ x :: post := List.prefix_append _ _
        have hp3 : pre ++ [x] <+: pre ++ x :: post := ⟨post, by simp⟩
        by_cases hlen : (pre ++ [x]).length ≤ removed.length
        · have hpx := List.prefix_of_prefix_length_le hp3 hp1 hlen
          have hxr : x ∈ removed := hpx.subset (by simp)
          exact (List.nodup_append.mp hnd3).2.2 hxr hx1
        · have hlen2 : removed.length ≤ pre.length := by
            simp only [List.length_append, List.length_singleton] at hlen
            omega
          have hrp := List.prefix_of_prefix_length_le hp1 hp2 hlen2
          have hyp : y ∈ pre := hrp.subset hyr
          exact (List.nodup_append.mp hnd2).2.2 hyp (List.mem_cons_of_mem _ hy)


theorem before_of_fifo (l : List (Node K V)) (x y : Node K V) (hf : FifoByBucket l)
    (hx : x ∈ l) (hy : y ∈ l) (hfreq : x.info.mFreq = y.info.mFreq) (haddr : x.addr < y.addr) :
    ∃ pre mid post, l = pre ++ x :: (mid ++ y :: post) := by
  obtain ⟨p, q, hl⟩ := List.append_of_mem hx
  unfold FifoByBucket at hf
  rw [hl] at hf hy
  obtain ⟨_, hq, hpq⟩ := List.pairwise_append.mp hf
  rcases List.mem_append.mp hy with h1 | h1
  · have := hpq y h1 x (List.mem_cons_self _ _) hfreq.symm
    omega
  · rcases List.mem_cons.mp h1 with h2 | h2
    · rw [h2] at haddr
      omega
    · obtain ⟨m, r, hq2⟩ := List.append_of_mem h2
      exact ⟨p, m, r, by rw [hl, hq2]⟩

/-- C7, as stated, fails. After `put a` (frequency 1), `put b` (frequency 2)
and `get(a)` both entries have frequency 2 and `a`, created first (address 0),
sits behind `b` (address 1); the `put` of `c` that follows evicts `b` and keeps
`a`. -/
theorem C7_counterexample :
    (run (CLFU.new 2 30 0 0 : CLFU String Nat)
        [.put "a" 1 1 1, .put "b" 2 1 2, .get 0 "a" 1]).map
      (fun c => (c.mVals.map (fun n => (n.info.mKey, n.addr, n.info.mFreq)),
        decide (FifoByBucket c.mVals)))
      = some ([("b", 1, 2), ("a", 0, 2)], false) ∧
    (run (CLFU.new 2 30 0 0 : CLFU String Nat)
        [.put "a" 1 1 1, .put "b" 2 1 2, .get 0 "a" 1, .put "c" 3 1 5]).map contents
      = some [("a", 1, 2), ("c", 3, 5)] := by
  decide

/-- C7 (amended): in every state reachable from a new cache by `put` calls
only, for any two present entries `A` and `B` with equal frequency where `A` was
created by an earlier `put` than `B` (it has the smaller address), `A` sits
nearer the head than `B`, and a `put` that evicts `B` evicts `A` as well. -/
theorem C7_fifo_within_bucket [DecidableEq K] [Zero V] (w : Nat) (t now0 : Int) (g : Nat)
    (ops : List (Op K V)) (c : CLFU K V) (A B : Node K V)
    (hputs : putsOnly ops = true)
    (h : run (CLFU.new w t now0 g) ops = some c)
    (hA : A ∈ c.mVals) (hB : B ∈ c.mVals)
    (hfreq : A.info.mFreq = B.info.mFreq) (hearlier : A.addr < B.addr) :
    (∃ pre mid post, c.mVals = pre ++ A :: (mid ++ B :: post)) ∧
    (∀ k v w1 f c1, put c k v w1 f = some c1 → B ∉ c1.mVals → A ∉ c1.mVals) := by
  obtain ⟨hh, hf⟩ := fifo_run ops _ c (heapOk_new w t now0 g)
    (by simp [CLFU.new, SortedByFreq]) (by simp [CLFU.new, FifoByBucket]) hputs h
  obtain ⟨pre, mid, post, hl⟩ := before_of_fifo c.mVals A B hf hA hB hfreq hearlier
  refine ⟨⟨pre, mid, post, hl⟩, ?_⟩
  intro k v w1 f c1 hput hgone
  exact put_evicts_head_first c c1 k v w1 f hh pre (mid ++ B :: post) A B hl
    (List.mem_append_right _ (List.mem_cons_self _ _)) hput hgone

/-- C7 (amended), on the two first entries of `a(1), b(1), c(1)`. -/
theorem C7_fifo_within_bucket_witness :
    (putsOnly (scenarioOps.take 3) = true ∧
      run (CLFU.new 3 30 0 0) (scenarioOps.take 3) = some scenarioPuts ∧
      ({ addr := 0, info := { mFreq := 1, mWeight := 1, mKey := "a", mVal := 1 } }
        : Node String Nat) ∈ scenarioPuts.mVals ∧
      ({ addr := 1, info := { mFreq := 1, mWeight := 1, mKey := "b", mVal := 2 } }
        : Node String Nat) ∈ scenarioPuts.mVals) ∧
    (∃ pre mid post, scenarioPuts.mVals
      = pre ++ { addr := 0, info := { mFreq := 1, mWeight := 1, mKey := "a", mVal := 1 } } ::
          (mid ++ { addr := 1, info := { mFreq := 1, mWeight := 1, mKey := "b", mVal := 2 } } ::
            post)) ∧
    (∀ k v w1 f c1, put scenarioPuts k v w1 f = some c1 →
      ({ addr := 1, info := { mFreq := 1, mWeight := 1, mKey := "b", mVal := 2 } }
        : Node String Nat) ∉ c1.mVals →
      ({ addr := 0, info := { mFreq := 1, mWeight := 1, mKey := "a", mVal := 1 } }
        : Node String Nat) ∉ c1.mVals) :=
  ⟨⟨by decide, rfl, by decide, by decide⟩,
    C7_fifo_within_bucket 3 30 0 0 (scenarioOps.take 3) scenarioPuts _ _ (by decide) rfl
      (by decide) (by decide) rfl (by decide)⟩


/-! ## More on iterators and `get` -/

theorem deref_eq_none_iff (l : List (Node K V)) (a : Nat) :
    deref l a = none ↔ a ∉ addrs l := by
  induction l with
  | nil => simp [deref, addrs]
  | cons n rest ih =>
    unfold deref
    by_cases hn : n.addr = a
    · simp [hn, addrs]
    · rw [if_neg hn, ih]
      simp only [addrs, List.map_cons, List.mem_cons, not_or]
      constructor
      · intro h; exact ⟨fun he => hn he.symm, h⟩
      · intro h; exact h.2

theorem deref_eq_some_iff (l : List (Node K V)) (a : Nat) (i : SValueInfo K V)
    (hnd : (addrs l).Nodup) : deref l a = some i ↔ ({ addr := a, info := i } : Node K V) ∈ l := by
  induction l with
  | nil => simp [deref]
  | cons n rest ih =>
    have hnd2 : n.addr ∉ addrs rest ∧ (addrs rest).Nodup := by simpa [addrs] using hnd
    unfold deref
    by_cases hn : n.addr = a
    · rw [if_pos hn]
      constructor
      · intro h
        simp only [Option.some.injEq] at h
        rw [← h, ← hn]
        exact List.mem_cons_self _ _
      · intro h
        rcases List.mem_cons.mp h with h1 | h1
        · rw [← h1]
        · exfalso
          apply hnd2.1
          rw [hn]
          exact List.mem_map_of_mem Node.addr h1
    · rw [if_neg hn, ih hnd2.2]
      constructor
      · intro h; exact List.mem_cons_of_mem _ h
      · intro h
        rcases List.mem_cons.mp h with h1 | h1
        · rw [← h1] at hn; exact absurd rfl hn
        · exact h1

theorem deref_perm (l1 l2 : List (Node K V)) (a : Nat) (hnd : (addrs l1).Nodup)
    (hp : l1.Perm l2) : deref l1 a = deref l2 a := by
  have hpa : (addrs l1).Perm (addrs l2) := hp.map _
  have hnd2 : (addrs l2).Nodup := hpa.nodup_iff.mp hnd
  cases h2 : deref l2 a with
  | none =>
    rw [deref_eq_none_iff] at h2 ⊢
    exact fun hm => h2 (hpa.subset hm)
  | some i =>
    rw [deref_eq_some_iff _ _ _ hnd2] at h2
    rw [deref_eq_some_iff _ _ _ hnd]
    exact hp.symm.subset h2

theorem deref_map_shiftNode (l : List (Node K V)) (s a : Nat) :
    deref (l.map (shiftNode s)) a
      = (deref l a).map (fun i => { i with mFreq := i.mFreq >>> s }) := by
  induction l with
  | nil => rfl
  | cons n rest ih =>
    simp only [List.map_cons, deref]
    have : (shiftNode s n).addr = n.addr := rfl
    rw [this]
    split_ifs
    · rfl
    · exact ih

theorem deref_addFreq_self (l : List (Node K V)) (a f : Nat) :
    deref (addFreq l a f) a
      = (deref l a).map (fun i => { i with mFreq := addSize i.mFreq f }) := by
  induction l with
  | nil => rfl
  | cons n rest ih =>
    unfold addFreq
    by_cases hn : n.addr = a
    · simp [hn, deref]
    · simp [hn, deref, ih]

theorem deref_addFreq_other (l : List (Node K V)) (a b f : Nat) (hb : b ≠ a) :
    deref (addFreq l a f) b = deref l b := by
  induction l with
  | nil => rfl
  | cons n rest ih =>
    unfold addFreq
    by_cases hn : n.addr = a
    · have hab : ¬ a = b := fun h => hb h.symm
      simp [hn, deref, hab]
    · rw [if_neg hn]
      unfold deref
      rw [ih]

/-- The method `get` on a present key whose iterator is valid, at a clock
reading with a defined shift count: it returns, with the new time stamp, and
the sequence holds the entries after `mFreq += n` on the accessed one and
`mFreq >>= dec` on all. -/
theorem get_defined [Zero V] (c : CLFU K V) (now dec : Int) (k : K) (n a : Nat)
    (hk : c.mIndex k = some a) (ha : a ∈ addrs c.mVals)
    (hs : shiftCount c now = some dec) (hdec : 0 ≤ dec) :
    ∃ c2 r, get c now k n = some (c2, r) ∧ c2.mTimeStamp = stampAfter c now ∧
      c2.mVals.Perm ((addFreq c.mVals a n).map (shiftNode dec.toNat)) := by
  have hd : ∃ x0, deref c.mVals a = some x0 := by
    cases h : deref c.mVals a with
    | none => exact absurd ha ((deref_eq_none_iff _ _).mp h)
    | some x0 => exact ⟨x0, rfl⟩
  obtain ⟨x0, hd⟩ := hd
  have hs1 : shiftCount { c with mVals := addFreq c.mVals a n } now = some dec :=
    (shiftCount_congr c { c with mVals := addFreq c.mVals a n } now rfl rfl).trans hs
  have hdf := decreaseFreq_eq { c with mVals := addFreq c.mVals a n } now dec hs1 hdec
  simp only at hdf
  have ha1 : a ∈ addrs ((addFreq c.mVals a n).map (shiftNode dec.toNat)) := by
    rw [addrs_map_shiftNode, addrs_addFreq]; exact ha
  have hsortdef : ∃ c3, sort { c with mVals := addFreq c.mVals a n } now a = some c3 := by
    unfold sort
    rw [hdf]
    simp only
    cases hx : deref ((addFreq c.mVals a n).map (shiftNode dec.toNat)) a with
    | none => exact absurd ha1 ((deref_eq_none_iff _ _).mp hx)
    | some x =>
      simp only
      split_ifs
      · exact ⟨_, rfl⟩
      · exact ⟨_, rfl⟩
  obtain ⟨c3, hsort⟩ := hsortdef
  obtain ⟨dec2, hs2, _, hperm, hc3⟩ := sort_some _ c3 now a hsort
  have hdd : dec2 = dec := by
    rw [hs1] at hs2
    simp only [Option.some.injEq] at hs2
    exact hs2.symm
  subst hdd
  simp only at hperm hc3
  have ha3 : a ∈ addrs c3.mVals :=
    ((hperm.map Node.addr).symm.subset ha1 : a ∈ c3.mVals.map Node.addr)
  cases hy : deref c3.mVals a with
  | none => exact absurd ha3 ((deref_eq_none_iff _ _).mp hy)
  | some y =>
    refine ⟨c3, y.mVal, ?_, ?_, hperm⟩
    · unfold get
      simp only [hk, hd, hsort, hy]
    · rw [hc3]
      exact stampAfter_congr c { c with mVals := addFreq c.mVals a n } now rfl rfl


/-! ### C8 -/

/-- C8 at a failing input. With a decay interval of 1 and `2^32 + 5` seconds
elapsed, `timeout()` stores the quotient in an `int` before it compares it with
32: the shift count is 5, not `min(2^32 + 5, 31) = 31`, and `get` leaves the
frequency `2^40` at `2^35`. -/
theorem C8_shift_narrowing :
    (run (CLFU.new 3 1 0 0 : CLFU String Nat) [.put "a" 1 1 (2 ^ 40)]).map
      (fun c => (c.mTimeOut, c.mTimeStamp, shiftCount c (2 ^ 32 + 5)))
      = some (1, 0, some 5) ∧
    (run (CLFU.new 3 1 0 0 : CLFU String Nat) [.put "a" 1 1 (2 ^ 40)]).map
      (fun c => (get c (2 ^ 32 + 5) "a" 0).map (fun p => contents p.1))
      = some (some [("a", 1, 2 ^ 35)]) ∧
    min (((2 : Int) ^ 32 + 5 - 0) / 1) 31 = 31 :=
  ⟨by decide, by decide, by decide⟩

/-- The decay shift where the quotient fits an `int`: for every decay interval
of at least 1 and every `elapsed = now - lastDecayTimestamp >= 0` with
`elapsed / decayInterval < 2^31`,
a `get` on a present key computes `shift = min(elapsed / decayInterval, 31)`; if
`elapsed < decayInterval` the shift is 0, no frequency is shifted and the time
stamp is unchanged; otherwise the time stamp becomes `now` and every entry of
the sequence has its frequency right-shifted by `shift`. -/
theorem decay_shift_in_range [Zero V] (c : CLFU K V) (now : Int) (k : K) (n a : Nat)
    (hT : 1 ≤ c.mTimeOut) (hel : 0 ≤ now - c.mTimeStamp)
    (hq : (now - c.mTimeStamp) / c.mTimeOut < 2 ^ 31)
    (hk : c.mIndex k = some a) (ha : a ∈ addrs c.mVals) :
    shiftCount c now = some (min ((now - c.mTimeStamp) / c.mTimeOut) 31) ∧
    ∃ c2 r, get c now k n = some (c2, r) ∧
      (now - c.mTimeStamp < c.mTimeOut →
        min ((now - c.mTimeStamp) / c.mTimeOut) 31 = 0 ∧ c2.mTimeStamp = c.mTimeStamp ∧
        c2.mVals.Perm (addFreq c.mVals a n)) ∧
      (c.mTimeOut ≤ now - c.mTimeStamp →
        c2.mTimeStamp = now ∧
        c2.mVals.Perm ((addFreq c.mVals a n).map
          (shiftNode (min ((now - c.mTimeStamp) / c.mTimeOut) 31).toNat))) := by
  have hs := shiftCount_eq c now hT hel hq
  have hq0 : 0 ≤ (now - c.mTimeStamp) / c.mTimeOut := Int.ediv_nonneg hel (by omega)
  obtain ⟨c2, r, hget, hstamp, hperm⟩ := get_defined c now _ k n a hk ha hs (by omega)
  refine ⟨hs, c2, r, hget, ?_, ?_⟩
  · intro hlt
    have h0 : (now - c.mTimeStamp) / c.mTimeOut = 0 := Int.ediv_eq_zero_of_lt hel hlt
    refine ⟨by rw [h0]; rfl, ?_, ?_⟩
    · rw [hstamp]; simp [stampAfter, hlt]
    · rw [h0] at hperm
      have : (min (0 : Int) 31).toNat = 0 := rfl
      rw [this, map_shiftNode_zero] at hperm
      exact hperm
  · intro hge
    refine ⟨?_, hperm⟩
    rw [hstamp]
    have : ¬ now - c.mTimeStamp < c.mTimeOut := by omega
    simp [stampAfter, this]

/-- The decay shift on the cache `b(1), c(1), a(2)` of the scenario (interval
30, time stamp 0): 65 seconds elapsed give the shift 2, 10 seconds give none. -/
theorem decay_shift_in_range_example :
    ((1 : Int) ≤ scenarioMid.mTimeOut ∧ (0 : Int) ≤ 65 - scenarioMid.mTimeStamp ∧
      (65 - scenarioMid.mTimeStamp) / scenarioMid.mTimeOut < 2 ^ 31 ∧
      scenarioMid.mIndex "a" = some 0 ∧ 0 ∈ addrs scenarioMid.mVals) ∧
    (shiftCount scenarioMid 65 = some 2 ∧ shiftCount scenarioMid 10 = some 0 ∧
      (get scenarioMid 65 "a" 1).map (fun p => (contents p.1, p.1.mTimeStamp))
        = some ([("b", 2, 0), ("c", 3, 0), ("a", 1, 0)], 65) ∧
      (get scenarioMid 10 "a" 1).map (fun p => (contents p.1, p.1.mTimeStamp))
        = some ([("b", 2, 1), ("c", 3, 1), ("a", 1, 3)], 0)) ∧
    (shiftCount scenarioMid 65
        = some (min ((65 - scenarioMid.mTimeStamp) / scenarioMid.mTimeOut) 31) ∧
      ∃ c2 r, get scenarioMid 65 "a" 1 = some (c2, r) ∧
        (65 - scenarioMid.mTimeStamp < scenarioMid.mTimeOut →
          min ((65 - scenarioMid.mTimeStamp) / scenarioMid.mTimeOut) 31 = 0 ∧
          c2.mTimeStamp = scenarioMid.mTimeStamp ∧
          c2.mVals.Perm (addFreq scenarioMid.mVals 0 1)) ∧
        (scenarioMid.mTimeOut ≤ 65 - scenarioMid.mTimeStamp →
          c2.mTimeStamp = 65 ∧
          c2.mVals.Perm ((addFreq scenarioMid.mVals 0 1).map
            (shiftNode (min ((65 - scenarioMid.mTimeStamp) / scenarioMid.mTimeOut) 31).toNat)))) :=
  ⟨by decide, by decide,
    decay_shift_in_range scenarioMid 65 "a" 1 0 (by decide) (by decide) (by decide) (by decide)
      (by decide)⟩


/-! ### C9 -/

/-- C9, as stated, fails. On the entry `a` of frequency 2, with a shift of 1
due, `get(a, 1)` leaves the frequency `(2 + 1) >> 1 = 1`, not
`(2 >> 1) + 1 = 2`; and with no decay due `get(a, 2^64 - 1)` leaves
`(2 + 2^64 - 1) mod 2^64 = 1`. -/
theorem C9_counterexample :
    (run (CLFU.new 3 30 0 0 : CLFU String Nat) [.put "a" 1 1 2]).map
      (fun c => (contents c, shiftCount c 30, shiftCount c 0))
      = some ([("a", 1, 2)], some 1, some 0) ∧
    (run (CLFU.new 3 30 0 0 : CLFU String Nat) [.put "a" 1 1 2, .get 30 "a" 1]).map contents
      = some [("a", 1, 1)] ∧
    (2 >>> 1) + 1 = 2 ∧
    (run (CLFU.new 3 30 0 0 : CLFU String Nat)
        [.put "a" 1 1 2, .get 0 "a" (2 ^ 64 - 1)]).map contents
      = some [("a", 1, 1)] :=
  ⟨by decide, by decide, by decide, by decide⟩

/-- C9 (amended): for every cache state with distinct nodes, present key `k`
whose entry has frequency `f`, `incrementBy` `n` and shift count `s` due at the
call (0 when no decay is due), `get(k, n)` first increments and then applies
the decay: the frequency of the accessed entry afterwards is
`((f + n) mod 2^64) >> s` (so `(f + n) mod 2^64` when no decay is due), and the
frequency `g` of every other entry becomes `g >> s`. -/
theorem C9_frequency_after_get [Zero V] (c : CLFU K V) (now s : Int) (k : K) (n a : Nat)
    (x : SValueInfo K V)
    (hnd : (addrs c.mVals).Nodup) (hk : c.mIndex k = some a)
    (hx : deref c.mVals a = some x)
    (hs : shiftCount c now = some s) (hs0 : 0 ≤ s) :
    ∃ c2 r, get c now k n = some (c2, r) ∧
      (deref c2.mVals a).map (fun i => i.mFreq)
        = some (((x.mFreq + n) % 2 ^ 64) >>> s.toNat) ∧
      (s = 0 → (deref c2.mVals a).map (fun i => i.mFreq) = some ((x.mFreq + n) % 2 ^ 64)) ∧
      ∀ b, b ≠ a →
        (deref c2.mVals b).map (fun i => i.mFreq)
          = (deref c.mVals b).map (fun i => i.mFreq >>> s.toNat) := by
  have ha : a ∈ addrs c.mVals := by
    by_contra hna
    rw [(deref_eq_none_iff _ _).mpr hna] at hx
    cases hx
  obtain ⟨c2, r, hget, _, hperm⟩ := get_defined c now s k n a hk ha hs hs0
  have hnd2 : (addrs c2.mVals).Nodup := by
    have hp : (addrs c2.mVals).Perm (addrs ((addFreq c.mVals a n).map (shiftNode s.toNat))) :=
      hperm.map _
    rw [addrs_map_shiftNode, addrs_addFreq] at hp
    exact hp.nodup_iff.mpr hnd
  have hself : (deref c2.mVals a).map (fun i => i.mFreq)
      = some (((x.mFreq + n) % 2 ^ 64) >>> s.toNat) := by
    rw [deref_perm _ _ a hnd2 hperm, deref_map_shiftNode, deref_addFreq_self, hx]
    rfl
  refine ⟨c2, r, hget, hself, ?_, ?_⟩
  · intro h0
    rw [hself, h0]
    rfl
  · intro b hb
    rw [deref_perm _ _ b hnd2 hperm, deref_map_shiftNode, deref_addFreq_other _ _ _ _ hb]
    cases deref c.mVals b <;> rfl

/-- C9 (amended), on the cache `b(1), c(1), a(2)` of the scenario, 65 seconds
after its time stamp: `get(a, 1)` leaves `a` at `(2 + 1) >> 2 = 0`. -/
theorem C9_frequency_after_get_witness :
    ((addrs scenarioMid.mVals).Nodup ∧ scenarioMid.mIndex "a" = some 0 ∧
      deref scenarioMid.mVals 0 = some { mFreq := 2, mWeight := 1, mKey := "a", mVal := 1 } ∧
      shiftCount scenarioMid 65 = some 2 ∧ (0 : Int) ≤ 2) ∧
    ∃ c2 r, get scenarioMid 65 "a" 1 = some (c2, r) ∧
      (deref c2.mVals 0).map (fun i => i.mFreq) = some (((2 + 1) % 2 ^ 64) >>> (2 : Int).toNat) ∧
      ((2 : Int) = 0 →
        (deref c2.mVals 0).map (fun i => i.mFreq) = some ((2 + 1) % 2 ^ 64)) ∧
      ∀ b, b ≠ 0 →
        (deref c2.mVals b).map (fun i => i.mFreq)
          = (deref scenarioMid.mVals b).map (fun i => i.mFreq >>> (2 : Int).toNat) :=
  ⟨⟨by decide, by decide, by decide, by decide, by decide⟩,
    C9_frequency_after_get scenarioMid 65 2 "a" 1 0
      { mFreq := 2, mWeight := 1, mKey := "a", mVal := 1 }
      (by decide) (by decide) (by decide) (by decide) (by decide)⟩

/-! ### C10 -/

/-- C10: every call of `get` that returns, on a present or an absent key, with
a decay due or not, leaves `mCurWeight`, `mMaxWeight`, the decay interval
`mTimeOut`, the allocator state and the index (hence the set of keys present)
unchanged, and the entries of the sequence afterwards are the entries before
with the same node, key, value and weight: only frequencies, positions and the
time stamp may change. -/
theorem C10_get_frame [Zero V] (c c2 : CLFU K V) (now : Int) (k : K) (n : Nat) (r : V)
    (h : get c now k n = some (c2, r)) :
    c2.mCurWeight = c.mCurWeight ∧ c2.mMaxWeight = c.mMaxWeight ∧ c2.mIndex = c.mIndex ∧
    c2.mTimeOut = c.mTimeOut ∧ c2.mHeap = c.mHeap ∧
    (c2.mVals.map core).Perm (c.mVals.map core) := by
  obtain ⟨h1, h2, h3, h4, h5, h6⟩ := get_frame c c2 now k n r h
  exact ⟨h2, h3, h1, h5, h4, h6⟩

/-- C10, on the last call of the scenario: `get(c, 5)` on `c(1), d(1), a(2)`,
65 seconds after the time stamp. -/
theorem C10_get_frame_witness :
    get scenarioFull 65 "c" 5 = some (scenarioEnd, 3) ∧
    (contents scenarioFull = [("c", 3, 1), ("d", 4, 1), ("a", 1, 2)] ∧
      contents scenarioEnd = [("d", 4, 0), ("a", 1, 0), ("c", 3, 1)]) ∧
    scenarioEnd.mCurWeight = scenarioFull.mCurWeight ∧
    scenarioEnd.mMaxWeight = scenarioFull.mMaxWeight ∧
    scenarioEnd.mIndex = scenarioFull.mIndex ∧
    scenarioEnd.mTimeOut = scenarioFull.mTimeOut ∧
    scenarioEnd.mHeap = scenarioFull.mHeap ∧
    (scenarioEnd.mVals.map core).Perm (scenarioFull.mVals.map core) :=
  ⟨rfl, by decide, C10_get_frame scenarioFull scenarioEnd 65 "c" 5 3 rfl⟩


/-! ### C11 -/

theorem filter_insertBefore (p : Node K V → Bool) (l : List (Node K V)) (pos : ListIter)
    (x : Node K V) (hx : p x = false) :
    (insertBefore l pos x).filter p = l.filter p := by
  induction l with
  | nil => simp [insertBefore, hx]
  | cons n rest ih =>
    unfold insertBefore
    split_ifs
    · simp [List.filter_cons, hx]
    · simp only [List.filter_cons, ih]

/-- What `put` leaves alone: the clock state, and the entries allocated before
the address `h0`, which lose a prefix at most. -/
theorem put_frame [DecidableEq K] (c c1 : CLFU K V) (k : K) (v : V) (w f : Nat)
    (h : put c k v w f = some c1) :
    c1.mTimeStamp = c.mTimeStamp ∧ c1.mTimeOut = c.mTimeOut ∧ c.mHeap ≤ c1.mHeap ∧
    ∀ h0, h0 ≤ c.mHeap →
      ∃ removed, c.mVals.filter (olderThan h0) = removed ++ c1.mVals.filter (olderThan h0) := by
  cases hk : c.mIndex k with
  | some a =>
    rw [put_present c k v w f a hk] at h
    simp only [Option.some.injEq] at h
    rw [← h]
    exact ⟨rfl, rfl, Nat.le_refl _, fun _ _ => ⟨[], rfl⟩⟩
  | none =>
    rw [put_absent c k v w f hk] at h
    cases he : evictLoop (c.mVals.length + 1) { c with mCurWeight := addSize c.mCurWeight w } with
    | none => simp [he] at h
    | some c2 =>
      simp only [he, Option.map_some', Option.some.injEq] at h
      obtain ⟨removed, h1, _, h3, _, h5, h6, _⟩ := evictLoop_some _ _ c2 he
      simp only at h1 h3 h5 h6
      rw [← h]
      refine ⟨h6, h5, ?_, ?_⟩
      · simp only [push]; omega
      · intro h0 hh0
        refine ⟨removed.filter (olderThan h0), ?_⟩
        have hnew : olderThan h0 (⟨c2.mHeap, ⟨f, w, k, v⟩⟩ : Node K V) = false := by
          simp only [olderThan, decide_eq_false_iff_not]
          omega
        simp only [push]
        rw [filter_insertBefore _ _ _ _ hnew, h1, List.filter_append]

theorem puts_frame [DecidableEq K] [Zero V] (ops : List (Op K V)) (c c1 : CLFU K V)
    (hputs : putsOnly ops = true) (h : run c ops = some c1) :
    c1.mTimeStamp = c.mTimeStamp ∧ c1.mTimeOut = c.mTimeOut ∧ c.mHeap ≤ c1.mHeap ∧
    ∀ h0, h0 ≤ c.mHeap →
      ∃ removed, c.mVals.filter (olderThan h0) = removed ++ c1.mVals.filter (olderThan h0) := by
  induction ops generalizing c with
  | nil =>
    simp only [run, Option.some.injEq] at h
    subst h
    exact ⟨rfl, rfl, Nat.le_refl _, fun _ _ => ⟨[], rfl⟩⟩
  | cons op ops ih =>
    cases op with
    | get now k n => simp [putsOnly] at hputs
    | put k v w f =>
      simp only [putsOnly] at hputs
      simp only [run, step] at h
      cases hst : put c k v w f with
      | none => simp [hst] at h
      | some c2 =>
        simp only [hst, Option.some_bind] at h
        obtain ⟨a1, a2, a3, a4⟩ := put_frame c c2 k v w f hst
        obtain ⟨b1, b2, b3, b4⟩ := ih c2 hputs h
        refine ⟨b1.trans a1, b2.trans a2, Nat.le_trans a3 b3, ?_⟩
        intro h0 hh0
        obtain ⟨r1, hr1⟩ := a4 h0 hh0
        obtain ⟨r2, hr2⟩ := b4 h0 (Nat.le_trans hh0 a3)
        exact ⟨r1 ++ r2, by rw [hr1, hr2, List.append_assoc]⟩

theorem filter_olderThan_of_fresh (c : CLFU K V) (hh : HeapOk c) :
    c.mVals.filter (olderThan c.mHeap) = c.mVals := by
  rw [List.filter_eq_self]
  intro n hn
  simp only [olderThan, decide_eq_true_eq]
  exact hh.fresh n.addr (List.mem_map_of_mem _ hn)

/-- C11: `put` never reads the clock (it has no clock argument), and after any
sequence of `put` calls, whatever the arguments, `lastDecayTimestamp` is
unchanged and the entries that existed before (those allocated below the
starting `mHeap`) are the former entries without a prefix, the evicted ones:
every retained entry is the same node with the same key, value, weight and
frequency, in the same relative order. On a state whose nodes are distinct
objects issued by the allocator, the former entries are the whole sequence. -/
theorem C11_put_never_ages [DecidableEq K] [Zero V] (ops : List (Op K V)) (c c1 : CLFU K V)
    (hputs : putsOnly ops = true) (h : run c ops = some c1) :
    c1.mTimeStamp = c.mTimeStamp ∧ c1.mTimeOut = c.mTimeOut ∧
    (∃ removed, c.mVals.filter (olderThan c.mHeap)
      = removed ++ c1.mVals.filter (olderThan c.mHeap)) ∧
    (HeapOk c → ∃ removed, c.mVals = removed ++ c1.mVals.filter (olderThan c.mHeap)) := by
  obtain ⟨h1, h2, _, h4⟩ := puts_frame ops c c1 hputs h
  refine ⟨h1, h2, h4 c.mHeap (Nat.le_refl _), ?_⟩
  intro hh
  obtain ⟨removed, hr⟩ := h4 c.mHeap (Nat.le_refl _)
  rw [filter_olderThan_of_fresh c hh] at hr
  exact ⟨removed, hr⟩


/-- C11, on the cache `b(1), c(1), a(2)` of the scenario and two insertions,
which evict `b` and `c` and keep the entry `a` with its frequency 2. -/
theorem C11_put_never_ages_witness :
    (putsOnly twoPuts = true ∧ run scenarioMid twoPuts = some scenarioTwoPuts) ∧
    (contents scenarioMid = [("b", 2, 1), ("c", 3, 1), ("a", 1, 2)] ∧
      contents scenarioTwoPuts = [("d", 4, 1), ("a", 1, 2), ("e", 5, 9)] ∧
      (scenarioTwoPuts.mVals.filter (olderThan scenarioMid.mHeap)).map
        (fun n => (n.info.mKey, n.info.mVal, n.info.mWeight, n.info.mFreq))
        = [("a", 1, 1, 2)]) ∧
    scenarioTwoPuts.mTimeStamp = scenarioMid.mTimeStamp ∧
    scenarioTwoPuts.mTimeOut = scenarioMid.mTimeOut ∧
    (∃ removed, scenarioMid.mVals.filter (olderThan scenarioMid.mHeap)
      = removed ++ scenarioTwoPuts.mVals.filter (olderThan scenarioMid.mHeap)) ∧
    (HeapOk scenarioMid →
      ∃ removed, scenarioMid.mVals
        = removed ++ scenarioTwoPuts.mVals.filter (olderThan scenarioMid.mHeap)) :=
  ⟨⟨by decide, rfl⟩, ⟨by decide, by decide, by decide⟩,
    C11_put_never_ages twoPuts scenarioMid scenarioTwoPuts (by decide) rfl⟩


/-! ### C12 -/

/-- With a new weight above `maxWeight` the eviction loop never ends normally,
whatever the number of tests allowed: it reaches `pop()` on the empty
sequence. -/
theorem evictLoop_oversized [DecidableEq K] (fuel : Nat) (c : CLFU K V) (w : Nat)
    (hcur : c.mCurWeight = sumWeights c.mVals + w) (hlt : c.mCurWeight < SIZE_MOD)
    (hw : c.mMaxWeight < w) : evictLoop fuel c = none := by
  induction fuel generalizing c with
  | zero => rfl
  | succ fuel ih =>
    unfold evictLoop
    have hgt : c.mCurWeight > c.mMaxWeight := by omega
    rw [if_pos hgt]
    cases hl : c.mVals with
    | nil => simp [pop, hl]
    | cons n rest =>
      rw [hl, sumWeights_cons] at hcur
      have hsub : subSize c.mCurWeight n.info.mWeight = sumWeights rest + w := by
        rw [subSize_eq _ _ (by omega) hlt]; omega
      simp only [pop, hl, Option.some_bind]
      exact ih _ hsub (by simp only; omega) hw

/-- The calls of `pop()` the loop makes before that: as many as there are
entries, and they leave the sequence empty with `mCurWeight` the new weight. -/
theorem pops_drain [DecidableEq K] (c : CLFU K V) (w : Nat)
    (hcur : c.mCurWeight = sumWeights c.mVals + w) (hlt : c.mCurWeight < SIZE_MOD) :
    pops c.mVals.length c
      = some { c with mCurWeight := w, mIndex := eraseKeys c.mIndex c.mVals, mVals := [] } := by
  cases c with
  | mk tout ts mx cur idx vals heap =>
    simp only at hcur hlt ⊢
    induction vals generalizing cur idx with
    | nil =>
      simp only [sumWeights, List.map_nil, List.sum_nil, Nat.zero_add] at hcur
      simp [pops, eraseKeys, hcur]
    | cons n rest ih =>
      rw [sumWeights_cons] at hcur
      have hsub : subSize cur n.info.mWeight = sumWeights rest + w := by
        rw [subSize_eq _ _ (by omega) hlt]; omega
      simp only [List.length_cons, pops, pop, Option.some_bind]
      rw [ih (subSize cur n.info.mWeight) (Function.update idx n.info.mKey none) hsub
        (by omega), eraseKeys_cons]

/-- The method `put` on an absent key with a weight above `maxWeight` that does
not wrap `mCurWeight`, on a state with `mCurWeight` the sum of the weights: the
call has no defined result. -/
theorem put_oversized [DecidableEq K] (c : CLFU K V) (k : K) (v : V) (w f : Nat)
    (hsum : c.mCurWeight = sumWeights c.mVals) (hk : c.mIndex k = none)
    (hw : c.mMaxWeight < w) (hfit : c.mCurWeight + w < SIZE_MOD) :
    put c k v w f = none := by
  have hadd : addSize c.mCurWeight w = c.mCurWeight + w := Nat.mod_eq_of_lt hfit
  rw [put_absent c k v w f hk,
    evictLoop_oversized _ { c with mCurWeight := addSize c.mCurWeight w } w
      (by simp only [hadd]; rw [hsum]) (by simp only [hadd]; exact hfit) hw]
  rfl

/-- C12 at a failing input. On the cache `b(1), c(1), a(2)` of the scenario
(`maxWeight = 3`, `mCurWeight = 3`) the call `put(z, 9, 4, 1)` of the absent key
`z` with weight 4 is not rejected: the loop calls `pop()` three times, which
leaves the sequence empty with `mCurWeight = 4 > 3`, and then calls `pop()` on
the empty sequence, so `put` has no defined result. With the weight `2^64 - 1`
the addition wraps `mCurWeight` to 2 and `z` is inserted beside the three
entries. -/
theorem C12_oversized_put :
    (scenarioMid.mIndex "z" = none ∧ scenarioMid.mMaxWeight = 3 ∧
      scenarioMid.mCurWeight = 3) ∧
    (pops 3 { scenarioMid with mCurWeight := addSize scenarioMid.mCurWeight 4 }).map
      (fun d => (contents d, d.mCurWeight)) = some ([], 4) ∧
    ((pops 3 { scenarioMid with mCurWeight := addSize scenarioMid.mCurWeight 4 }).bind
      pop).map contents = none ∧
    (put scenarioMid "z" 9 4 1).map contents = none ∧
    (put scenarioMid "z" 9 (2 ^ 64 - 1) 1).map (fun c => (contents c, c.mCurWeight))
      = some ([("b", 2, 1), ("c", 3, 1), ("z", 9, 1), ("a", 1, 2)], 2) :=
  ⟨by decide, by decide, by decide, by decide, by decide⟩


/-! ### C13 -/

/-- In a sorted sequence the entries `find` walks over are the entries with a
frequency of at most `f`, and the entries it leaves are those above `f`. -/
theorem takeWhile_eq_filter_of_sorted (l : List (Node K V)) (f : Nat)
    (hs : SortedByFreq l) :
    l.takeWhile (notAbove f) = l.filter (notAbove f) ∧
    l.dropWhile (notAbove f) = l.filter (above f) := by
  induction l with
  | nil => exact ⟨rfl, rfl⟩
  | cons n rest ih =>
    unfold SortedByFreq at hs
    obtain ⟨hn, hrest⟩ := List.pairwise_cons.mp hs
    obtain ⟨ih1, ih2⟩ := ih hrest
    by_cases hna : notAbove f n = true
    · have hab : above f n = false := by
        simp only [notAbove, decide_eq_true_eq] at hna
        simp only [above, decide_eq_false_iff_not]
        omega
      rw [List.takeWhile_cons_of_pos hna, List.dropWhile_cons_of_pos hna,
        List.filter_cons_of_pos hna, List.filter_cons_of_neg (by rw [hab]; simp)]
      exact ⟨by rw [ih1], ih2⟩
    · have hlt : f < n.info.mFreq := by
        simp only [notAbove, decide_eq_true_eq, not_le] at hna
        exact hna
      have hab : above f n = true := by simp only [above, decide_eq_true_eq]; exact hlt
      rw [List.takeWhile_cons_of_neg hna, List.dropWhile_cons_of_neg hna,
        List.filter_cons_of_neg hna, List.filter_cons_of_pos hab]
      constructor
      · symm
        rw [List.filter_eq_nil_iff]
        intro m hm
        have := hn m hm
        simp only [notAbove, decide_eq_true_eq, not_le]
        omega
      · congr 1
        symm
        rw [List.filter_eq_self]
        intro m hm
        have := hn m hm
        simp only [above, decide_eq_true_eq]
        omega

/-- The sequence a call of `put` that returns leaves, on a sorted sequence of
distinct nodes and an absent key. -/
theorem put_placement_of_some [DecidableEq K] (c c1 : CLFU K V) (k : K) (v : V) (w f : Nat)
    (hs : SortedByFreq c.mVals) (hh : HeapOk c) (hk : c.mIndex k = none)
    (h : put c k v w f = some c1) :
    ∃ removed retained, c.mVals = removed ++ retained ∧
      c1.mVals = retained.filter (notAbove f) ++
        (⟨c.mHeap, ⟨f, w, k, v⟩⟩ : Node K V) :: retained.filter (above f) ∧
      retained.filter (notAbove f) = retained.takeWhile (notAbove f) ∧
      retained.filter (above f) = retained.dropWhile (notAbove f) := by
  rw [put_absent c k v w f hk] at h
  cases he : evictLoop (c.mVals.length + 1) { c with mCurWeight := addSize c.mCurWeight w } with
  | none => simp [he] at h
  | some c2 =>
    simp only [he, Option.map_some', Option.some.injEq] at h
    have hh0 : HeapOk { c with mCurWeight := addSize c.mCurWeight w } := ⟨hh.nodup, hh.fresh⟩
    have hh2 := heapOk_evictLoop _ _ c2 hh0 he
    obtain ⟨removed, h1, _, h3, _⟩ := evictLoop_some _ _ c2 he
    simp only at h1 h3
    have hs2 : SortedByFreq c2.mVals := by
      unfold SortedByFreq at hs ⊢
      rw [h1] at hs
      exact (List.pairwise_append.mp hs).2.1
    obtain ⟨e1, e2⟩ := takeWhile_eq_filter_of_sorted c2.mVals f hs2
    refine ⟨removed, c2.mVals, h1, ?_, e1.symm, e2.symm⟩
    rw [← h, push_vals c2 _ hh2.nodup, h3, e1, e2]

/-- C13, as stated, fails. The cache just built with `maxWeight = 3`, whose
member `mCurWeight` started at 5, has an empty, hence sorted, sequence, and the
key `a` is absent; `put(a, 1, 1, 1)`, of weight `1 <= 3`, finds `6 > 3`, calls
`pop()` on the empty sequence and leaves no sequence at all. -/
theorem C13_counterexample :
    (contents (CLFU.new 3 30 0 5 : CLFU String Nat) = [] ∧
      decide (SortedByFreq (CLFU.new 3 30 0 5 : CLFU String Nat).mVals) = true ∧
      (CLFU.new 3 30 0 5 : CLFU String Nat).mIndex "a" = none ∧
      1 ≤ (CLFU.new 3 30 0 5 : CLFU String Nat).mMaxWeight) ∧
    (put (CLFU.new 3 30 0 5 : CLFU String Nat) "a" 1 1 1).map contents = none :=
  ⟨by decide, by decide⟩

/-- C13 (amended): for every cache state whose sequence is sorted and whose
`mCurWeight` is the sum of the weights (I4), with distinct nodes, and every
`put(k, v, w, f)` of an absent key with `w <= maxWeight`, the call returns and
the sequence it leaves is the retained entries with frequency `<= f`, in their
previous order, then the new entry, then the retained entries with frequency
`> f`, in their previous order: the new entry is linked in before the first
entry from the head with a frequency above `f`, or at the tail. -/
theorem C13_put_placement [DecidableEq K] (c : CLFU K V) (k : K) (v : V) (w f : Nat)
    (hs : SortedByFreq c.mVals) (hh : HeapOk c) (hwt : WeightOk c)
    (hk : c.mIndex k = none) (hw : w ≤ c.mMaxWeight) :
    ∃ removed retained c1, c.mVals = removed ++ retained ∧
      put c k v w f = some c1 ∧
      c1.mVals = retained.filter (notAbove f) ++
        (⟨c.mHeap, ⟨f, w, k, v⟩⟩ : Node K V) :: retained.filter (above f) ∧
      retained.filter (notAbove f) = retained.takeWhile (notAbove f) ∧
      retained.filter (above f) = retained.dropWhile (notAbove f) := by
  obtain ⟨c2, he⟩ := evictLoop_defined c w hwt hw
  have hput : put c k v w f
      = some (push c2 { mFreq := f, mWeight := w, mKey := k, mVal := v }) := by
    rw [put_absent c k v w f hk, he]; rfl
  obtain ⟨removed, retained, h1, h2, h3, h4⟩ :=
    put_placement_of_some c _ k v w f hs hh hk hput
  exact ⟨removed, retained, _, h1, hput, h2, h3, h4⟩

/-- C13 (amended), on the cache `b(1), c(1), a(2)` of the scenario and the
insertion of `d` with frequency 1: `b` is evicted, `d` goes between `c(1)` and
`a(2)`. -/
theorem C13_put_placement_witness :
    (SortedByFreq scenarioMid.mVals ∧ HeapOk scenarioMid ∧ WeightOk scenarioMid ∧
      scenarioMid.mIndex "d" = none ∧ 1 ≤ scenarioMid.mMaxWeight) ∧
    (put scenarioMid "d" 4 1 1).map contents = some [("c", 3, 1), ("d", 4, 1), ("a", 1, 2)] ∧
    ∃ removed retained c1, scenarioMid.mVals = removed ++ retained ∧
      put scenarioMid "d" 4 1 1 = some c1 ∧
      c1.mVals = retained.filter (notAbove 1) ++
        (⟨scenarioMid.mHeap, ⟨1, 1, "d", 4⟩⟩ : Node String Nat) ::
          retained.filter (above 1) ∧
      retained.filter (notAbove 1) = retained.takeWhile (notAbove 1) ∧
      retained.filter (above 1) = retained.dropWhile (notAbove 1) :=
  ⟨⟨scenarioMid_sorted.1, scenarioMid_inv.1, by decide, by decide, by decide⟩, by decide,
    C13_put_placement scenarioMid "d" 4 1 1 scenarioMid_sorted.1 scenarioMid_inv.1
      (by decide) (by decide) (by decide)⟩


/-! ### C14 -/

theorem head_dropWhile_above (l : List (Node K V)) (f : Nat) (y : Node K V)
    (h : (l.dropWhile (notAbove f)).head? = some y) : f < y.info.mFreq := by
  induction l with
  | nil => simp at h
  | cons n rest ih =>
    by_cases hna : notAbove f n = true
    · rw [List.dropWhile_cons_of_pos hna] at h
      exact ih h
    · rw [List.dropWhile_cons_of_neg hna] at h
      simp only [List.head?_cons, Option.some.injEq] at h
      rw [← h]
      simp only [notAbove, decide_eq_true_eq, not_le] at hna
      exact hna

theorem takeWhile_nil_of_head (l : List (Node K V)) (f : Nat)
    (h : ∀ y, l.head? = some y → f < y.info.mFreq) :
    l.takeWhile (notAbove f) = [] ∧ l.dropWhile (notAbove f) = l := by
  cases l with
  | nil => exact ⟨rfl, rfl⟩
  | cons n rest =>
    have hlt := h n rfl
    have hna : ¬ notAbove f n = true := by
      simp only [notAbove, decide_eq_true_eq, not_le]
      exact hlt
    exact ⟨List.takeWhile_cons_of_neg hna, List.dropWhile_cons_of_neg hna⟩

/-- A call of `get` on a present key that returns, on a sequence of distinct
nodes, in full. -/
theorem get_some_eq [Zero V] (c c2 : CLFU K V) (now : Int) (k : K) (n a : Nat) (r : V)
    (hnd : (addrs c.mVals).Nodup) (hk : c.mIndex k = some a)
    (h : get c now k n = some (c2, r)) :
    ∃ pre x post dec, c.mVals = pre ++ x :: post ∧ x.addr = a ∧
      shiftCount c now = some dec ∧ 0 ≤ dec ∧ r = x.info.mVal ∧
      c2 = { c with
        mTimeStamp := stampAfter c now
        mVals := reposition (pre.map (shiftNode dec.toNat)) (touched n dec.toNat x)
          (post.map (shiftNode dec.toNat)) } := by
  obtain ⟨i, dec, hd, hsc, hdec⟩ := get_present_some c c2 now k n a r hk h
  obtain ⟨pre, x, post, hv, hxa, _, _⟩ := deref_split _ _ _ hd
  rw [← hxa] at hk
  rw [get_eq c now dec k n pre post x hk hv hnd hsc hdec] at h
  simp only [Option.some.injEq, Prod.mk.injEq] at h
  exact ⟨pre, x, post, dec, hv, hxa, hsc, hdec, h.2.symm, h.1.symm⟩

/-- The sequence a call of `get` on a present key leaves when it returns, on a
sequence of distinct nodes, with `s` the shift applied by the decay. -/
theorem get_reposition_of_some [Zero V] (c c2 : CLFU K V) (now : Int) (k : K) (n a : Nat)
    (r : V) (hnd : (addrs c.mVals).Nodup) (hk : c.mIndex k = some a)
    (h : get c now k n = some (c2, r)) :
    ∃ (pre : List (Node K V)) (x : Node K V) (post : List (Node K V)) (s : Nat)
      (mid rest : List (Node K V)),
      c.mVals = pre ++ x :: post ∧ x.addr = a ∧ shiftCount c now = some (Int.ofNat s) ∧
      post.map (shiftNode s) = mid ++ rest ∧
      c2.mVals = pre.map (shiftNode s) ++ mid ++ touched n s x :: rest ∧
      (∀ m ∈ mid, m.info.mFreq ≤ (touched n s x).info.mFreq) ∧
      (∀ y, rest.head? = some y → (touched n s x).info.mFreq < y.info.mFreq) ∧
      ((∀ y, (post.map (shiftNode s)).head? = some y →
          (touched n s x).info.mFreq < y.info.mFreq) →
        c2.mVals = pre.map (shiftNode s) ++ touched n s x :: post.map (shiftNode s)) := by
  obtain ⟨pre, x, post, dec, hv, hxa, hsc, hdec, _, hc2⟩ := get_some_eq c c2 now k n a r hnd hk h
  have hcast : ((dec.toNat : Nat) : Int) = dec := Int.toNat_of_nonneg hdec
  refine ⟨pre, x, post, dec.toNat,
    (post.map (shiftNode dec.toNat)).takeWhile (notAbove (touched n dec.toNat x).info.mFreq),
    (post.map (shiftNode dec.toNat)).dropWhile (notAbove (touched n dec.toNat x).info.mFreq),
    hv, hxa, by rw [show Int.ofNat dec.toNat = dec from hcast]; exact hsc,
    (List.takeWhile_append_dropWhile _ _).symm, ?_, ?_, ?_, ?_⟩
  · rw [hc2]; rfl
  · exact mem_takeWhile_notAbove _ _
  · exact head_dropWhile_above _ _
  · intro hhead
    obtain ⟨e1, e2⟩ := takeWhile_nil_of_head _ _ hhead
    rw [hc2]
    simp only [reposition, e1, e2, List.append_nil]

/-- C14, as stated, fails. On the cache `a(1), b(1)` built with a decay interval
of 0, the key `b` is present, but `get(b)` divides by zero in `timeout()`: it
leaves no sequence, so `b` ends nowhere. -/
theorem C14_counterexample :
    (run (CLFU.new 3 0 0 0 : CLFU String Nat) [.put "a" 1 1 1, .put "b" 2 1 1]).map
      (fun c => (contents c, c.mIndex "b", c.mTimeOut))
      = some ([("a", 1, 1), ("b", 2, 1)], some 1, 0) ∧
    (run (CLFU.new 3 0 0 0 : CLFU String Nat)
        [.put "a" 1 1 1, .put "b" 2 1 1, .get 0 "b" 1]).map contents = none :=
  ⟨by decide, by decide⟩

/-- C14 (amended): for every cache state satisfying I3 (with distinct nodes) and
every `get` on a present key at a clock reading at which the ageing step of
`get` is defined (time-out not zero or not yet elapsed, shift count not
negative), the call returns and, with `s` the shift applied by the decay: the
sequence before is `pre ++ x :: post` with `x` the accessed entry, and the
sequence after is the shifted `pre`, then a part `mid` of the shifted `post`,
then the updated `x`, then the remainder `rest` of the shifted `post`. So the
relative order of all other entries is unchanged, the entries that preceded
`x` still precede it, every entry of `mid` has a frequency of at most that
of `x`, and the first entry of `rest` has a greater one (`x` is last when
`rest` is empty); when the successor of `x` already has a greater frequency,
or `x` is last, the order of the sequence is unchanged. -/
theorem C14_get_reposition [Zero V] (c : CLFU K V) (now : Int) (k : K) (n a : Nat)
    (hh : HeapOk c) (hi : IndexOk c) (hk : c.mIndex k = some a)
    (hclock : clockDefined c now = true) :
    ∃ (c2 : CLFU K V) (r : V) (pre : List (Node K V)) (x : Node K V)
      (post : List (Node K V)) (s : Nat) (mid rest : List (Node K V)),
      get c now k n = some (c2, r) ∧
      c.mVals = pre ++ x :: post ∧ x.addr = a ∧ shiftCount c now = some (Int.ofNat s) ∧
      post.map (shiftNode s) = mid ++ rest ∧
      c2.mVals = pre.map (shiftNode s) ++ mid ++ touched n s x :: rest ∧
      (∀ m ∈ mid, m.info.mFreq ≤ (touched n s x).info.mFreq) ∧
      (∀ y, rest.head? = some y → (touched n s x).info.mFreq < y.info.mFreq) ∧
      ((∀ y, (post.map (shiftNode s)).head? = some y →
          (touched n s x).info.mFreq < y.info.mFreq) →
        c2.mVals = pre.map (shiftNode s) ++ touched n s x :: post.map (shiftNode s)) := by
  obtain ⟨dec, hs, hdec⟩ := (clockDefined_iff c now).mp hclock
  obtain ⟨m, hm, hma, _⟩ := (hi k a).mp hk
  have ha : a ∈ addrs c.mVals := by
    rw [← hma]; exact List.mem_map_of_mem Node.addr hm
  obtain ⟨c2, r, hget, _, _⟩ := get_defined c now dec k n a hk ha hs hdec
  obtain ⟨pre, x, post, s, mid, rest, h1, h2, h3, h4, h5, h6, h7, h8⟩ :=
    get_reposition_of_some c c2 now k n a r hh.nodup hk hget
  exact ⟨c2, r, pre, x, post, s, mid, rest, hget, h1, h2, h3, h4, h5, h6, h7, h8⟩

/-- C14 (amended), on the cache `b(1), c(1), a(2)` of the scenario: `get(b)`
raises `b` to frequency 2 and moves it behind `c(1)` and `a(2)`. -/
theorem C14_get_reposition_witness :
    (HeapOk scenarioMid ∧ IndexOk scenarioMid ∧ scenarioMid.mIndex "b" = some 1 ∧
      clockDefined scenarioMid 0 = true) ∧
    (contents scenarioMid = [("b", 2, 1), ("c", 3, 1), ("a", 1, 2)] ∧
      (get scenarioMid 0 "b" 1).map (fun p => contents p.1)
        = some [("c", 3, 1), ("a", 1, 2), ("b", 2, 2)]) ∧
    ∃ (c2 : CLFU String Nat) (r : Nat) (pre : List (Node String Nat)) (x : Node String Nat)
      (post : List (Node String Nat)) (s : Nat) (mid rest : List (Node String Nat)),
      get scenarioMid 0 "b" 1 = some (c2, r) ∧
      scenarioMid.mVals = pre ++ x :: post ∧ x.addr = 1 ∧
      shiftCount scenarioMid 0 = some (Int.ofNat s) ∧
      post.map (shiftNode s) = mid ++ rest ∧
      c2.mVals = pre.map (shiftNode s) ++ mid ++ touched 1 s x :: rest ∧
      (∀ m ∈ mid, m.info.mFreq ≤ (touched 1 s x).info.mFreq) ∧
      (∀ y, rest.head? = some y → (touched 1 s x).info.mFreq < y.info.mFreq) ∧
      ((∀ y, (post.map (shiftNode s)).head? = some y →
          (touched 1 s x).info.mFreq < y.info.mFreq) →
        c2.mVals = pre.map (shiftNode s) ++ touched 1 s x :: post.map (shiftNode s)) :=
  ⟨⟨scenarioMid_inv.1, scenarioMid_inv.2, by decide, by decide⟩, by decide,
    C14_get_reposition scenarioMid 0 "b" 1 1 scenarioMid_inv.1 scenarioMid_inv.2
      (by decide) (by decide)⟩


/-! ### C15 -/

/-- The keys of the sequence are distinct when the index is consistent with a
sequence of distinct nodes. -/
theorem keys_nodup (c : CLFU K V) (hh : HeapOk c) (hi : IndexOk c) : (keys c.mVals).Nodup := by
  unfold keys
  have hl : c.mVals.Nodup := List.Nodup.of_map _ hh.nodup
  refine List.Nodup.map_on ?_ hl
  intro x hx y hy hxy
  have h1 : c.mIndex x.info.mKey = some x.addr := (hi _ _).mpr ⟨x, hx, rfl, rfl⟩
  have h2 : c.mIndex x.info.mKey = some y.addr := (hi _ _).mpr ⟨y, hy, rfl, hxy.symm⟩
  rw [h1] at h2
  simp only [Option.some.injEq] at h2
  exact List.inj_on_of_nodup_map hh.nodup hx hy h2

/-- C15: in every state reached from a new cache by `put` and `get` calls (for
every starting value of `mCurWeight` and all arguments), the keys of the
entries of the sequence are pairwise distinct, the keys of the index are the
keys of the sequence, and each index entry is a valid iterator to the entry
that carries its key. -/
theorem C15_index_consistency [DecidableEq K] [Zero V] (w : Nat) (t now0 : Int) (g : Nat)
    (ops : List (Op K V)) (c : CLFU K V)
    (h : run (CLFU.new w t now0 g) ops = some c) :
    (keys c.mVals).Nodup ∧
    (∀ k, (c.mIndex k).isSome = true ↔ k ∈ keys c.mVals) ∧
    (∀ k a, c.mIndex k = some a → ∃ i, deref c.mVals a = some i ∧ i.mKey = k) := by
  obtain ⟨hh, hi⟩ := inv_run ops _ c (heapOk_new w t now0 g) (indexOk_new w t now0 g) h
  refine ⟨keys_nodup c hh hi, ?_, ?_⟩
  · intro k
    constructor
    · intro hk
      cases hidx : c.mIndex k with
      | none => simp [hidx] at hk
      | some a =>
        obtain ⟨n, hn, _, hnk⟩ := (hi k a).mp hidx
        rw [← hnk]
        exact List.mem_map_of_mem (fun n => n.info.mKey) hn
    · intro hk
      obtain ⟨n, hn, hnk⟩ := List.mem_map.mp hk
      have := (hi k n.addr).mpr ⟨n, hn, rfl, hnk⟩
      simp [this]
  · intro k a hidx
    obtain ⟨n, hn, hna, hnk⟩ := (hi k a).mp hidx
    refine ⟨n.info, ?_, hnk⟩
    rw [deref_eq_some_iff _ _ _ hh.nodup, ← hna]
    exact hn

/-- C15, on the scenario. -/
theorem C15_index_consistency_witness :
    run (CLFU.new 3 30 0 0) scenarioOps = some scenarioEnd ∧
    (keys scenarioEnd.mVals = ["d", "a", "c"] ∧
      scenarioEnd.mIndex "d" = some 3 ∧ scenarioEnd.mIndex "a" = some 0 ∧
      scenarioEnd.mIndex "c" = some 2 ∧ scenarioEnd.mIndex "b" = none) ∧
    (keys scenarioEnd.mVals).Nodup ∧
    (∀ k, (scenarioEnd.mIndex k).isSome = true ↔ k ∈ keys scenarioEnd.mVals) ∧
    (∀ k a, scenarioEnd.mIndex k = some a →
      ∃ i, deref scenarioEnd.mVals a = some i ∧ i.mKey = k) :=
  ⟨rfl, by decide, C15_index_consistency 3 30 0 0 scenarioOps scenarioEnd rfl⟩


/-! ### C16 -/

/-- C16 at a failing input. The constructor leaves the sequence and the index
empty, so the weights sum to 0, but it does not write `mCurWeight`: the member
keeps the value `g` its storage held. Starting at 5 with `maxWeight = 3`, the
first `put` of weight 1 finds `6 > 3` and calls `pop()` on the empty sequence. -/
theorem C16_new_cache (w : Nat) (t now : Int) (g : Nat) :
    ((CLFU.new w t now g : CLFU String Nat).mVals = [] ∧
      (∀ k, (CLFU.new w t now g : CLFU String Nat).mIndex k = none) ∧
      sumWeights (CLFU.new w t now g : CLFU String Nat).mVals = 0 ∧
      (CLFU.new w t now g : CLFU String Nat).mCurWeight = g) ∧
    ((CLFU.new 3 30 0 5 : CLFU String Nat).mCurWeight = 5 ∧
      (put (CLFU.new 3 30 0 5 : CLFU String Nat) "a" 1 1 1).map contents = none) :=
  ⟨⟨rfl, fun _ => rfl, rfl, rfl⟩, by decide, by decide⟩

/-! ### C17 -/

/-- A run of the eviction loop that ends makes `n` calls of `pop()`, each on a
sequence that is not empty and in a state over capacity, and `n` is at most
the number of entries. -/
theorem evictLoop_pops [DecidableEq K] (fuel : Nat) (c c2 : CLFU K V)
    (h : evictLoop fuel c = some c2) :
    ∃ n, n ≤ c.mVals.length ∧ pops n c = some c2 ∧ c2.mCurWeight ≤ c2.mMaxWeight ∧
      ∀ i, i < n → ∃ ci, pops i c = some ci ∧ ci.mCurWeight > ci.mMaxWeight ∧ ci.mVals ≠ [] := by
  induction fuel generalizing c with
  | zero => simp [evictLoop] at h
  | succ fuel ih =>
    unfold evictLoop at h
    by_cases hgt : c.mCurWeight > c.mMaxWeight
    · rw [if_pos hgt] at h
      cases hl : c.mVals with
      | nil => simp [pop, hl] at h
      | cons m rest =>
        have hpop : pop c = some { c with
            mCurWeight := subSize c.mCurWeight m.info.mWeight
            mIndex := Function.update c.mIndex m.info.mKey none
            mVals := rest } := by
          simp only [pop, hl]
        rw [hpop, Option.some_bind] at h
        obtain ⟨n, hn, hp, hle, hall⟩ := ih _ h
        refine ⟨n + 1, by simp only [List.length_cons]; simp only at hn; omega, ?_, hle, ?_⟩
        · simp only [pops, hpop, Option.some_bind]
          exact hp
        · intro i hi
          cases i with
          | zero => exact ⟨c, rfl, hgt, by rw [hl]; simp⟩
          | succ j =>
            obtain ⟨cj, hcj, h1, h2⟩ := hall j (by omega)
            exact ⟨cj, by simp only [pops, hpop, Option.some_bind]; exact hcj, h1, h2⟩
    · rw [if_neg hgt] at h
      simp only [Option.some.injEq] at h
      subst h
      exact ⟨0, Nat.zero_le _, rfl, by omega, fun i hi => absurd hi (Nat.not_lt_zero i)⟩

/-- C17: for every cache state in which `mCurWeight` is the sum of the weights
of the entries (whatever the weights, 0 included) and every `put` of an absent
key with a weight of at most `maxWeight`, the loop
`while (mCurWeight > mMaxWeight) pop()` ends after `n` turns with `n` at most the
number of entries, no turn calls `pop()` on an empty sequence, and `put`
returns. -/
theorem C17_eviction_loop_terminates [DecidableEq K] (c : CLFU K V) (k : K) (v : V)
    (w f : Nat) (hwt : WeightOk c) (hk : c.mIndex k = none) (hw : w ≤ c.mMaxWeight) :
    ∃ n c2, n ≤ c.mVals.length ∧
      pops n { c with mCurWeight := addSize c.mCurWeight w } = some c2 ∧
      c2.mCurWeight ≤ c2.mMaxWeight ∧
      (∀ i, i < n → ∃ ci, pops i { c with mCurWeight := addSize c.mCurWeight w } = some ci ∧
        ci.mCurWeight > ci.mMaxWeight ∧ ci.mVals ≠ []) ∧
      put c k v w f = some (push c2 { mFreq := f, mWeight := w, mKey := k, mVal := v }) := by
  obtain ⟨c2, he⟩ := evictLoop_defined c w hwt hw
  obtain ⟨n, hn, hp, hle, hall⟩ := evictLoop_pops _ _ c2 he
  refine ⟨n, c2, hn, hp, hle, hall, ?_⟩
  rw [put_absent c k v w f hk, he]
  rfl

/-- C17, on the cache `a` (weight 0), `b` (weight 2), `c` (weight 1) with
`maxWeight = 3` and the insertion of `d` with weight 2: two turns, which unlink
`a` and `b`. -/
theorem C17_eviction_loop_terminates_witness :
    (WeightOk zeroWeightCache ∧ zeroWeightCache.mIndex "d" = none ∧
      2 ≤ zeroWeightCache.mMaxWeight) ∧
    (zeroWeightCache.mVals.map (fun n => (n.info.mKey, n.info.mWeight))
        = [("a", 0), ("b", 2), ("c", 1)] ∧
      (put zeroWeightCache "d" 4 2 1).map
        (fun c => c.mVals.map (fun n => (n.info.mKey, n.info.mWeight)))
        = some [("c", 1), ("d", 2)]) ∧
    ∃ n c2, n ≤ zeroWeightCache.mVals.length ∧
      pops n { zeroWeightCache with mCurWeight := addSize zeroWeightCache.mCurWeight 2 }
        = some c2 ∧
      c2.mCurWeight ≤ c2.mMaxWeight ∧
      (∀ i, i < n →
        ∃ ci, pops i { zeroWeightCache with
            mCurWeight := addSize zeroWeightCache.mCurWeight 2 } = some ci ∧
          ci.mCurWeight > ci.mMaxWeight ∧ ci.mVals ≠ []) ∧
      put zeroWeightCache "d" 4 2 1
        = some (push c2 { mFreq := 1, mWeight := 2, mKey := "d", mVal := 4 }) :=
  ⟨⟨by decide, by decide, by decide⟩, ⟨by decide, by decide⟩,
    C17_eviction_loop_terminates zeroWeightCache "d" 4 2 1 (by decide) (by decide)
      (by decide)⟩

/-! ### C18 -/

/-- C18: for every cache state, every clock reading (one at which a decay is
due included) and every key not in the index, `get` returns with the whole
state unchanged: no frequency is shifted, no entry moves and the time stamp is
not written. -/
theorem C18_get_absent_preserves_state [Zero V] (c : CLFU K V) (now : Int) (k : K) (n : Nat)
    (hk : c.mIndex k = none) : (get c now k n).map Prod.fst = some c := by
  rw [get_absent c now k n hk]
  rfl

/-- C18, on the cache `b(1), c(1), a(2)` of the scenario, 1000 seconds after
its time stamp, when a decay is due, and the absent key `zz`. -/
theorem C18_get_absent_preserves_state_witness :
    (scenarioMid.mIndex "zz" = none ∧ shiftCount scenarioMid 1000 = some 31) ∧
    (get scenarioMid 1000 "zz" 1).map Prod.fst = some scenarioMid :=
  ⟨by decide, C18_get_absent_preserves_state scenarioMid 1000 "zz" 1 (by decide)⟩

end LFU
